import Mathlib

/-!
Verification development for the prompt-preprocessing and smart-response
pipeline of `app.py` (PandasAI Streamlit application).

The Python code works by a sequence of regular-expression substitutions over
one mutable text buffer, followed by a numeric-summary stage.  We embed the
text as `List Char` and each regex pass as a left-to-right, non-overlapping
scanner (`scanSub`), exactly mirroring `re.sub` semantics: matches are found
in the original text from left to right, lookbehind inspects original
characters, and replacement text is never rescanned.

Character classes model Python's `re` classes on the alphabet actually used
by the program: ASCII letters/digits/underscore and Hangul syllables count
as word characters (`\w`), and the custom class `[가-힣A-Za-z0-9]` from the
source is modelled by `isClassKo`.  Python floats are modelled as exact
rationals (`ℚ`), with `round` as round-half-to-even.
-/

namespace App

/-- Hangul syllable (the `가-힣` range used by the source's custom class). -/
def isKo (c : Char) : Bool := 0xAC00 ≤ c.toNat && c.toNat ≤ 0xD7A3

/-- ASCII Latin letter. -/
def isLatin (c : Char) : Bool :=
  ('A' ≤ c && c ≤ 'Z') || ('a' ≤ c && c ≤ 'z')

/-- ASCII digit. -/
def isDigitCh (c : Char) : Bool := '0' ≤ c && c ≤ '9'

/-- ASCII alphanumeric (the `[A-Za-z0-9]` class of the device-code regex). -/
def isAln (c : Char) : Bool := isLatin c || isDigitCh c

/-- The custom boundary class `[가-힣A-Za-z0-9]` from `_normalize_column_words`. -/
def isClassKo (c : Char) : Bool := isKo c || isAln c

/-- Python `\w` on the program's alphabet: letters, digits, underscore, Hangul. -/
def isWordCh (c : Char) : Bool := isAln c || c = '_' || isKo c

/-- Python `\s` on the program's alphabet. -/
def isSpaceCh (c : Char) : Bool :=
  c = ' ' || c = '\t' || c = '\n' || c = '\r' || c = '\x0b' || c = '\x0c'

/-- ASCII lowercasing, as used by `re.IGNORECASE` on this alphabet. -/
def lowerCh (c : Char) : Char :=
  if 'A' ≤ c && c ≤ 'Z' then Char.ofNat (c.toNat + 32) else c

/-- Case-insensitive character comparison. -/
def ciEq (a b : Char) : Bool := lowerCh a = lowerCh b

/-- Case-insensitive prefix test: does pattern `w` start text `s`? -/
def ciPref : List Char → List Char → Bool
  | [], _ => true
  | _ :: _, [] => false
  | a :: as, b :: bs => ciEq b a && ciPref as bs

/-- Case-sensitive prefix test: does pattern `w` start text `s`? -/
def csPref : List Char → List Char → Bool
  | [], _ => true
  | _ :: _, [] => false
  | a :: as, b :: bs => (b = a : Bool) && csPref as bs

/-- Substring test (`pat in s` / `str.find`). -/
def containsL (pat : List Char) : List Char → Bool
  | [] => csPref pat []
  | c :: cs => csPref pat (c :: cs) || containsL pat cs

/-!
A matcher `m prevRev s` decides whether the regex matches at the current
position: `prevRev` is the reversed list of original characters before the
position (for lookbehind/`\b`), `s` is the text from the position on.
`some n` means the match consumes `n + 1` characters.
-/

/-- Generic `re.sub` loop, fuelled so that the kernel can evaluate it: scan
left to right, replace non-overlapping matches by `repl`, keeping original
characters as lookbehind context.  Each step consumes at least one
character, so fuel `s.length` always suffices. -/
def scanSubGo (m : List Char → List Char → Option Nat) (repl : List Char) :
    Nat → List Char → List Char → List Char
  | _, _, [] => []
  | 0, _, s => s
  | fuel + 1, prevRev, c :: cs =>
    match m prevRev (c :: cs) with
    | some n =>
        repl ++ scanSubGo m repl fuel (((c :: cs).take (n+1)).reverse ++ prevRev) (cs.drop n)
    | none => c :: scanSubGo m repl fuel (c :: prevRev) cs

def scanSub (m : List Char → List Char → Option Nat) (repl : List Char)
    (prevRev s : List Char) : List Char :=
  scanSubGo m repl s.length prevRev s

/-- Generic `re.search`: does the matcher succeed at some position? -/
def scanFind (m : List Char → List Char → Option Nat) :
    List Char → List Char → Bool
  | _, [] => false
  | prevRev, c :: cs => (m prevRev (c :: cs)).isSome || scanFind m (c :: prevRev) cs

/-- Left word-boundary half of `\b`: previous character absent or non-word. -/
def boundaryL (prevRev : List Char) : Bool :=
  match prevRev with
  | [] => true
  | p :: _ => !isWordCh p

/-- Right word-boundary half of `\b`: next character absent or non-word. -/
def boundaryR (s : List Char) : Bool :=
  match s with
  | [] => true
  | n :: _ => !isWordCh n

/-- Matcher for `\bw\b` (case-insensitive when `ci`). -/
def mWord (ci : Bool) (w : List Char) (prevRev s : List Char) : Option Nat :=
  if boundaryL prevRev && (if ci then ciPref w s else csPref w s)
      && boundaryR (s.drop w.length) then
    some (w.length - 1)
  else none

/-- Left half of the custom Korean boundary `(?<![가-힣A-Za-z0-9])`. -/
def classL (prevRev : List Char) : Bool :=
  match prevRev with
  | [] => true
  | p :: _ => !isClassKo p

/-- Right half of the custom Korean boundary `(?=[^가-힣A-Za-z0-9]|$)`. -/
def classR (s : List Char) : Bool :=
  match s with
  | [] => true
  | n :: _ => !isClassKo n

/-- The fixed closed particle list `_josa_list` from the source, in order. -/
def josaStrs : List String :=
  ["은", "는", "이", "가", "을", "를", "의", "에", "에서", "로", "으로", "와", "과", "도"]

def josaL : List (List Char) := josaStrs.map String.toList

/-- Try the particle alternation `(?:은|는|…)?` greedily, in listed order,
each alternative checked against the trailing custom boundary. -/
def tryJosa : List (List Char) → List Char → Option Nat
  | [], _ => none
  | j :: js, rest =>
    if csPref j rest && classR (rest.drop j.length) then some j.length
    else tryJosa js rest

/-- Matcher for the Korean-synonym pattern
`(?<![가-힣A-Za-z0-9])(syn)(josa)?(?=[^가-힣A-Za-z0-9]|$)`. -/
def mKo (syn : List Char) (prevRev s : List Char) : Option Nat :=
  if classL prevRev && csPref syn s then
    match tryJosa josaL (s.drop syn.length) with
    | some jl => some (syn.length + jl - 1)
    | none => if classR (s.drop syn.length) then some (syn.length - 1) else none
  else none

/-- Count and skip a maximal run of whitespace (the greedy `\s*`). -/
def dropSpaces : List Char → Nat × List Char
  | [] => (0, [])
  | c :: cs =>
    if isSpaceCh c then
      let r := dropSpaces cs
      (r.1 + 1, r.2)
    else (0, c :: cs)

/-- Matcher for the group-by pattern `word\s*별` (no word boundaries). -/
def mBeol (ci : Bool) (w : List Char) (_prevRev s : List Char) : Option Nat :=
  if (if ci then ciPref w s else csPref w s) then
    let rest := s.drop w.length
    let sp := dropSpaces rest
    match sp.2 with
    | b :: _ => if b = '별' then some (w.length + sp.1) else none
    | [] => none
  else none

/-- Matcher for a plain literal (Python `str.replace`). -/
def mLit (w : List Char) (_prevRev s : List Char) : Option Nat :=
  if csPref w s then some (w.length - 1) else none

/-- Matcher for a whitespace run `\s+` (used by the final collapse). -/
def mSpaces (_prevRev s : List Char) : Option Nat :=
  match s with
  | c :: cs => if isSpaceCh c then some (dropSpaces cs).1 else none
  | [] => none

/-- Matcher for the command-phrase alternation: first listed phrase that
matches at this position wins (Python alternation order). -/
def mAlt (pats : List (List Char)) (_prevRev s : List Char) : Option Nat :=
  match pats with
  | [] => none
  | p :: ps => if csPref p s && p.length ≠ 0 then some (p.length - 1) else mAlt ps _prevRev s

/-- Python `str.replace(old, "")`/`str.replace` with a fixed replacement. -/
def replaceAll (w repl s : List Char) : List Char := scanSub (mLit w) repl [] s

/-- Python `str.strip()` (both ends, whitespace). -/
def stripL (s : List Char) : List Char :=
  ((s.dropWhile isSpaceCh).reverse.dropWhile isSpaceCh).reverse

/-- `re.sub(r"\s+", " ", ·)`. -/
def collapseWs (s : List Char) : List Char := scanSub mSpaces [' '] [] s

/-!  The synonym tables, trigger-word lists and phrase lists, copied from the
source in definition order. -/

def COLUMN_SYNONYMS : List (String × List String) :=
  [("장비명", ["장비"]),
   ("UT", ["공종", "설비", "유틸리티", "utility"]),
   ("Floor", ["층수", "플로어"]),
   ("사전제작X_비대상(일부공정)(1)_길이", ["비대상"]),
   ("사전제작X_A(장비단Final)(2)_길이", ["장비단"]),
   ("사전제작○_B(H_UP구간)(3)_당초계획_길이", ["계획물량"]),
   ("사전제작○_B(H_UP구간)(4)_실제시공_길이", ["시공물량"]),
   ("사전제작X_C(TV단Final)(5)_길이", ["테핑밸브단"]),
   ("합계(1+2+4+5)", ["총합"])]

def VALUE_SYNONYMS : List (String × List String) :=
  [("1F", ["1층"]),
   ("2F", ["2층"]),
   ("3F", ["3층"]),
   ("Bulk Gas", ["벌크가스", "bulk gas"]),
   ("Drain", ["드레인", "drain"]),
   ("Exhaust", ["이그저스트", "exhaust"]),
   ("UPW(DI)", ["초순수"]),
   ("PCW", ["프로세스쿨링워터"]),
   ("NPW", ["공업용수"]),
   ("Chemical", ["케미칼", "chemical"]),
   ("Pumping", ["펌프", "pumping"]),
   ("Toxic Gas", ["톡식가스", "toxic gas"])]

def dimUTWords : List String := ["UT", "공종", "설비", "유틸리티", "utility"]
def dimDeviceWords : List String := ["장비명", "장비"]
def dimFloorWords : List String := ["층", "층수"]

def commandPhrases : List String :=
  ["보여줘", "알려줘", "구해줘", "리스트해줘", "정리해줘", "목록화해줘",
   "합은", "총합은", "합계는", "총량은", "몇이야", "몇개야", "얼마야",
   "어떻게 돼", "얼마인지", "결과는"]

/-- `re.search(r"[가-힣]", syn)`: the test choosing the Korean pattern. -/
def hasKo (s : List Char) : Bool := s.any isKo

/-- One synonym replacement of `_normalize_column_words`: Korean-containing
synonyms use the custom boundary/particle pattern, Latin ones `\b…\b` with
`re.IGNORECASE`. -/
def normColOne (target syn : String) (p : List Char) : List Char :=
  if hasKo syn.toList then scanSub (mKo syn.toList) target.toList [] p
  else scanSub (mWord true syn.toList) target.toList [] p

/-- `PromptPreprocessor._normalize_column_words`. -/
def normalize_column_words (p : List Char) : List Char :=
  COLUMN_SYNONYMS.foldl
    (fun p ts => (ts.2 ++ [ts.1]).foldl (fun p syn => normColOne ts.1 syn p) p) p

/-- The value-synonym loop of `process` (step 1): every alias replaced via
`\b…\b` with `re.IGNORECASE`, regardless of script. -/
def normalize_value_words (p : List Char) : List Char :=
  VALUE_SYNONYMS.foldl
    (fun p ts => ts.2.foldl (fun p syn => scanSub (mWord true syn.toList) ts.1.toList [] p) p) p

/-- `re.search(rf"{word}\s*별", raw, re.IGNORECASE)`. -/
def searchBeol (ci : Bool) (w : String) (raw : List Char) : Bool :=
  scanFind (mBeol ci w.toList) [] raw

/-- One dimension-detection loop: test each trigger word against the
original raw text (case-insensitively); on the first hit record the
dimension column and strip `word\s*별` (case-sensitively) from the working
text, then stop. -/
def applyDim (ws : List String) (col : String) (raw : List Char)
    (acc : List String × List Char) : List String × List Char :=
  match ws.find? (fun w => searchBeol true w raw) with
  | some w => (acc.1 ++ [col], scanSub (mBeol false w.toList) [] [] acc.2)
  | none => acc

def floorLabels : List String := ["1F", "2F", "3F"]

def mkFloorCond (fl : String) : String := "(Floor == \"" ++ fl ++ "\")"
def mkUTCond (v : String) : String := "(UT == \"" ++ v ++ "\")"
def mkDevCond (d : String) : String := "(장비명 == \"" ++ d ++ "\")"

/-- Floor-condition pass: for each label present as a whole word, append one
condition and strip every whole-word occurrence. -/
def floorStep (acc : List String × List Char) (fl : String) : List String × List Char :=
  if scanFind (mWord false fl.toList) [] acc.2 then
    (acc.1 ++ [mkFloorCond fl], scanSub (mWord false fl.toList) [] [] acc.2)
  else acc

def applyFloors (p : List Char) : List String × List Char :=
  floorLabels.foldl floorStep ([], p)

/-- The literal the unescaped pattern `\b{val}\b` actually matches: regex
metacharacters `(`/`)` form a group, so they are dropped from the literal
(`UPW(DI)` matches the text `UPWDI`). -/
def valPatternWord (v : String) : List Char :=
  v.toList.filter (fun c => !(c = '(' || c = ')'))

/-- Keys of the value table that the UT-condition loop considers
(floor labels excluded; the exclusion list contains no key). -/
def utVals : List String :=
  (VALUE_SYNONYMS.map Prod.fst).filter (fun v => !(v ∈ floorLabels) && !(v ∈ ["장비", "장비들"]))

/-- UT-condition pass over the remaining value keys. -/
def applyUT (p : List Char) : List String × List Char :=
  utVals.foldl
    (fun acc v =>
      if scanFind (mWord false (valPatternWord v)) [] acc.2 then
        (acc.1 ++ [mkUTCond v], scanSub (mWord false (valPatternWord v)) [] [] acc.2)
      else acc)
    ([], p)

/-- Maximal ASCII-alphanumeric run at the head. -/
def takeAlnRun (s : List Char) : List Char × List Char :=
  (s.takeWhile isAln, s.dropWhile isAln)

/-- `re.findall(r"\b[A-Za-z0-9]{3,}\b", ·)` (fuelled): maximal alphanumeric
runs of length ≥ 3 whose neighbours are non-word characters (a Hangul
neighbour defeats `\b`, and no shorter sub-run can match). -/
def findAlnumGo : Nat → Option Char → List Char → List (List Char)
  | _, _, [] => []
  | 0, _, _ => []
  | fuel + 1, prev, c :: cs =>
    if isAln c then
      let run := (c :: cs).takeWhile isAln
      let rest := (c :: cs).dropWhile isAln
      let okL := match prev with | none => true | some p => !isWordCh p
      (if okL && boundaryR rest && decide (3 ≤ run.length) then [run] else []) ++
        findAlnumGo fuel (some (run.getLastD c)) rest
    else findAlnumGo fuel (some c) cs

def findAlnumWords (prev : Option Char) (s : List Char) : List (List Char) :=
  findAlnumGo s.length prev s

/-- The device-code list: alphanumeric words with at least one letter and at
least one digit, in match order. -/
def deviceMatches (p : List Char) : List (List Char) :=
  (findAlnumWords none p).filter (fun r => r.any isLatin && r.any isDigitCh)

/-- Device-condition pass: one condition per detected code, each literal
occurrence of the code removed by `str.replace`. -/
def applyDevs (p : List Char) : List String × List Char :=
  (deviceMatches p).foldl
    (fun acc dev => (acc.1 ++ [mkDevCond (String.mk dev)], replaceAll dev [] acc.2))
    ([], p)

/-- Output-column pass: canonical names still present as substrings are
selected (in table order) and removed. -/
def applyCols (p : List Char) : List String × List Char :=
  (COLUMN_SYNONYMS.map Prod.fst).foldl
    (fun acc col =>
      if containsL col.toList acc.2 then
        (acc.1 ++ [col], replaceAll col.toList [] acc.2)
      else acc)
    ([], p)

/-- Command standardization: if at least two Hangul characters remain, strip
the request phrases and append the fixed closing directive phrase. -/
def applyCommand (p : List Char) : List Char :=
  if 2 ≤ (p.filter isKo).length then
    stripL (scanSub (mAlt (commandPhrases.map String.toList)) [] [] p)
      ++ (" 데이터프레임으로 보여줘").toList
  else p

/-- Python `str(list_of_str)`. -/
def pyListRepr (l : List String) : String :=
  "[" ++ String.intercalate ", " (l.map (fun s => "'" ++ s ++ "'")) ++ "]"

def idCols : List String := ["장비명", "UT", "Floor"]

/-- `" AND ".join`. -/
def joinAnd : List String → String
  | [] => ""
  | [c] => c
  | c :: c2 :: cs => c ++ " AND " ++ joinAnd (c2 :: cs)

/-- `" ".join` on character lists. -/
def joinSpace : List (List Char) → List Char
  | [] => []
  | [x] => x
  | x :: y :: xs => x ++ ' ' :: joinSpace (y :: xs)

/-- The clause list of the final directive, in source order. -/
def directiveParts (conds sel dims : List String) (p : List Char) : List (List Char) :=
  (if conds.isEmpty then [] else [(joinAnd conds).toList]) ++
  (if sel.isEmpty then [] else [("출력컬럼 = " ++ pyListRepr (idCols ++ sel)).toList]) ++
  (if dims.isEmpty then []
   else [("차원컬럼 = " ++ pyListRepr dims).toList, "집계방식 = 'sum'".toList]) ++
  [p]

/-- Final assembly: join the non-empty clauses and the remaining text with
single spaces, collapse whitespace runs, trim. -/
def assemble (conds sel dims : List String) (p : List Char) : List Char :=
  stripL (collapseWs (joinSpace (directiveParts conds sel dims p)))

/-- Everything `PromptPreprocessor.process` computes, kept apart for the
statements: conditions, selected columns, dimension columns, final
remainder, assembled directive. -/
structure PreOut where
  conds : List String
  sel : List String
  dims : List String
  remainder : List Char

/-- Step 1 of `process`: equipment placeholder, column synonyms, value
synonyms, and the two fixed whole-word rewrites, in source order. -/
def normalizeStage (p0 : List Char) : List Char :=
  let p1 := scanSub (mWord false "장비".toList) "equipment".toList [] p0
  let p2 := normalize_column_words p1
  let p3 := normalize_value_words p2
  let p4 := scanSub (mWord false "배관".toList) "유틸리티".toList [] p3
  scanSub (mWord false "물량".toList) "물량들".toList [] p4

/-- Stages 1–2 of `process`: normalization then the three dimension loops
(searching the original raw text, stripping the working text). -/
def stageDims (raw : List Char) : List String × List Char :=
  applyDim dimFloorWords "Floor" raw
    (applyDim dimDeviceWords "장비명" raw
      (applyDim dimUTWords "UT" raw ([], normalizeStage (stripL raw))))

def stageFloors (raw : List Char) : List String × List Char :=
  applyFloors (stageDims raw).2

def stageUT (raw : List Char) : List String × List Char :=
  applyUT (stageFloors raw).2

def stageDevs (raw : List Char) : List String × List Char :=
  applyDevs (stageUT raw).2

def stageCols (raw : List Char) : List String × List Char :=
  applyCols (stageDevs raw).2

def stageRemainder (raw : List Char) : List Char :=
  applyCommand (stageCols raw).2

/-- `PromptPreprocessor.process`, stage by stage, on a non-empty prompt. -/
def processParts (raw : List Char) : PreOut :=
  { conds := (stageFloors raw).1 ++ (stageUT raw).1 ++ (stageDevs raw).1
    sel := (stageCols raw).1
    dims := (stageDims raw).1
    remainder := stageRemainder raw }

/-- The assembled directive of `process`. -/
def directiveOf (raw : List Char) : List Char :=
  assemble (processParts raw).conds (processParts raw).sel (processParts raw).dims
    (processParts raw).remainder

/-- `PromptPreprocessor.process` as a string function (empty input returns
the empty string, as in the source). -/
def process (raw : String) : String :=
  if raw = "" then "" else String.mk (directiveOf raw.toList)

/-!  SmartResponseEngine.  Python floats are modelled as exact rationals;
`round(x, nd)` is round-half-to-even at `nd` decimals, `int(x)` truncates
toward zero. -/

/-- Strict order on ℚ as a boolean (kernel-evaluable core comparison). -/
def qlt (a b : ℚ) : Bool := Rat.blt a b

/-- Exact rational arithmetic through the always-normalizing constructors
(the core operators are irreducible; these reduce). -/
def qmul (a b : ℚ) : ℚ := mkRat (a.num * b.num) (a.den * b.den)

def qadd (a b : ℚ) : ℚ := mkRat (a.num * b.den + b.num * a.den) (a.den * b.den)

def qsub (a b : ℚ) : ℚ := mkRat (a.num * b.den - b.num * a.den) (a.den * b.den)

def qdiv (a b : ℚ) : ℚ := Rat.divInt (a.num * b.den) (a.den * b.num)

/-- Powers of ten in ℚ. -/
def pow10 : ℕ → ℚ
  | 0 => 1
  | n + 1 => qmul 10 (pow10 n)

/-- Round-half-to-even to an integer (Python `round(x)`). -/
def halfEvenInt (x : ℚ) : ℤ :=
  let f : ℤ := Rat.floor x
  let r : ℚ := qsub x (mkRat f 1)
  if qlt r (mkRat 1 2) then f
  else if qlt (mkRat 1 2) r then f + 1
  else if f % 2 = 0 then f else f + 1

/-- Python `round(x, nd)`. -/
def pyRound (x : ℚ) (nd : ℕ) : ℚ :=
  qdiv (mkRat (halfEvenInt (qmul x (pow10 nd))) 1) (pow10 nd)

/-- Python `int(x)`: truncation toward zero. -/
def intTrunc (q : ℚ) : ℤ := Int.tdiv q.num q.den

/-- Decimal digit characters (total, with an irrelevant default). -/
def digitCh : Nat → Char
  | 0 => '0' | 1 => '1' | 2 => '2' | 3 => '3' | 4 => '4'
  | 5 => '5' | 6 => '6' | 7 => '7' | 8 => '8' | 9 => '9'
  | _ => '0'

/-- Decimal digits of a natural number (fuelled division loop). -/
def natStrGo : Nat → Nat → List Char
  | 0, _ => []
  | fuel + 1, n =>
    if n < 10 then [digitCh n]
    else natStrGo fuel (n / 10) ++ [digitCh (n % 10)]

def natStr (n : Nat) : String := String.mk (natStrGo (n + 1) n)

/-- Python `str` of an integer. -/
def intStr (i : ℤ) : String :=
  if i < 0 then "-" ++ natStr i.natAbs else natStr i.toNat

/-- Python `f"{q:.2f}"` for a value with at most two decimal places. -/
def fmt2 (q : ℚ) : String :=
  let m : ℤ := halfEvenInt (qmul q 100)
  let a := m.natAbs
  (if m < 0 then "-" else "") ++ natStr (a / 100) ++ "." ++
    (if a % 100 < 10 then "0" else "") ++ natStr (a % 100)

/-- The local helper `format_value` of `generate_smart_response`. -/
def format_value (v : ℚ) : String :=
  let rounded := pyRound v 2
  if rounded = mkRat (intTrunc rounded) 1 then intStr (intTrunc rounded) else fmt2 rounded

/-- Absolute value on ℚ via the core comparison. -/
def qabs (q : ℚ) : ℚ := if qlt q 0 then Rat.neg q else q

/-- Python `repr` of a float carrying at most two decimal places: minimal
decimals, but at least one (`2.0`, `1.2`, `1.25`). -/
def floatRepr (q : ℚ) : String :=
  let sign := if qlt q 0 then "-" else ""
  if (qmul q 10).den = 1 then
    let n := (qmul (qabs q) 10).num.toNat
    sign ++ natStr (n / 10) ++ "." ++ natStr (n % 10)
  else
    let n := (qmul (qabs q) 100).num.toNat
    sign ++ natStr (n / 100) ++ "." ++ (if n % 100 < 10 then "0" else "") ++ natStr (n % 100)

/-- Scalar JSON field value inside a payload entry. -/
inductive FVal where
  | num (q : ℚ)
  | fstr (s : String)
deriving DecidableEq

/-- One `stats_json` entry: an ordered Python dict of scalars. -/
abbrev Entry := List (String × FVal)

/-- The whole `stats_json`: an ordered Python dict of entries. -/
abbrev Payload := List (String × Entry)

/-- Python dict assignment `d[k] = v`: replace in place, or append. -/
def dictSet {α : Type} (l : List (String × α)) (k : String) (v : α) :
    List (String × α) :=
  if l.any (fun kv => kv.1 = k) then
    l.map (fun kv => if kv.1 = k then (k, v) else kv)
  else l ++ [(k, v)]

/-- Python `d.get(k, dflt)`. -/
def dictGetD {α : Type} (l : List (String × α)) (k : String) (dflt : α) : α :=
  match l.find? (fun kv => kv.1 = k) with
  | some kv => kv.2
  | none => dflt

/-- Python `d.get(k)` as an `Option`. -/
def dictGet {α : Type} (l : List (String × α)) (k : String) : Option α :=
  (l.find? (fun kv => kv.1 = k)).map Prod.snd

/-- Python `base.update(upd)`. -/
def dictUpdate (base upd : Entry) : Entry :=
  upd.foldl (fun b kv => dictSet b kv.1 kv.2) base

/-- Per-column statistics, as produced by `analyze_dataframe`. -/
structure StatV where
  sum : ℚ
  mean : ℚ
  max : ℚ
  min : ℚ
deriving DecidableEq

abbrev DfStats := List (String × StatV)

/-- Python `in` on strings. -/
def containsStr (needle hay : String) : Bool := containsL needle.toList hay.toList

def grandTotalCol : String := "합계(1+2+4+5)"

/-- `total_sum`: the grand-total column's sum, or `0.0` when absent. -/
def totalSumOf (df : DfStats) : ℚ :=
  match df.find? (fun kv => kv.1 = grandTotalCol) with
  | some kv => kv.2.sum
  | none => 0

/-- The plan-vs-actual fields written under the actual column's key. -/
def planFields (plan real : ℚ) : Entry :=
  [("plan_to_real_ratio", .num (pyRound (qmul (qdiv real plan) 100) 1)),
   ("plan_to_real_diff", .num (pyRound (qsub real plan) 2)),
   ("plan_to_real_trend", .fstr
      (if qlt plan real then "시공이 계획보다 많음"
       else if qlt real plan then "시공이 계획보다 적음"
       else "계획과 동일"))]

/-- One iteration of the `stats_json` loop: build the column's own entry,
apply the plan-vs-actual block, then assign the entry (the assignment comes
last, exactly as in the source). -/
def statsJsonStep (df : DfStats) (totalSum : ℚ) (json : Payload)
    (colv : String × StatV) : Payload :=
  let entry : Entry :=
    [("sum", .num (pyRound colv.2.sum 2))] ++
      (if qlt 0 totalSum then
        [("ratio_to_total", .num (pyRound (qmul (qdiv colv.2.sum totalSum) 100) 1))]
      else [])
  let json :=
    if containsStr "당초계획" colv.1 then
      df.foldl
        (fun j other =>
          if containsStr "실제시공" other.1 && qlt 0 colv.2.sum then
            dictSet j other.1
              (dictUpdate (dictGetD j other.1 []) (planFields colv.2.sum other.2.sum))
          else j)
        json
    else json
  dictSet json colv.1 entry

/-- `stats_json` right before the prefab-comparison block. -/
def statsJsonBase (df : DfStats) : Payload :=
  df.foldl (statsJsonStep df (totalSumOf df)) []

def nonPrefabCols : List String :=
  ["사전제작X_비대상(일부공정)(1)_길이",
   "사전제작X_A(장비단Final)(2)_길이",
   "사전제작X_C(TV단Final)(5)_길이"]

def prefabCol : String := "사전제작○_B(H_UP구간)(4)_실제시공_길이"

def colSumD (df : DfStats) (c : String) : ℚ :=
  match df.find? (fun kv => kv.1 = c) with
  | some kv => kv.2.sum
  | none => 0

def preFabSum (df : DfStats) : ℚ := colSumD df prefabCol

/-- Python `sum([...])` over the three non-prefab column sums. -/
def nonPreFabSum (df : DfStats) : ℚ := (nonPrefabCols.map (colSumD df)).foldl qadd 0

/-- The three-branch trend label of the prefab comparison. -/
def prefabTrend (r : ℚ) : String :=
  if qlt 100 r then
    "사전제작 진행물량은 비진행 물량보다 " ++ floatRepr (pyRound (qdiv r 100) 2) ++ "배 많습니다."
  else if r = 100 then "사전제작 진행물량과 비진행 물량은 동일한 수준입니다."
  else "사전제작 진행물량은 비진행 물량 대비 " ++ floatRepr r ++ "% 수준으로 상대적으로 적습니다."

/-- The prefab-comparison entry, or `none` when the guard fails. -/
def prefabEntryOf (df : DfStats) : Option Entry :=
  if qlt 0 (nonPreFabSum df) then
    let r := pyRound (qmul (qdiv (preFabSum df) (nonPreFabSum df)) 100) 1
    some [("사전제작_물량합계", .num (pyRound (preFabSum df) 2)),
          ("비진행_물량합계", .num (pyRound (nonPreFabSum df) 2)),
          ("사전제작_비율(비진행_기준%)", .num r),
          ("비교결과", .fstr (prefabTrend r))]
  else none

def prefabKey : String := "사전제작_비진행_비교"

/-- The `try/except` around the prefab block: a successful body adds its
entry (or nothing), an exception degrades to an inline error object under
the same key. -/
def prefabBlock (json : Payload) (body : Except String (Option Entry)) : Payload :=
  match body with
  | .ok (some e) => dictSet json prefabKey e
  | .ok none => json
  | .error msg => dictSet json prefabKey [("오류", .fstr msg)]

/-- The complete `stats_json` payload handed to the LLM prompt. -/
def statsJsonFull (df : DfStats) : Payload :=
  prefabBlock (statsJsonBase df) (.ok (prefabEntryOf df))

/-- The four rows of the statistics table `stats_dict`. -/
structure StatsRows where
  sumRow : List (String × String)
  meanRow : List (String × String)
  maxRow : List (String × String)
  minRow : List (String × String)
deriving DecidableEq

/-- One column of the statistics table: the grand-total column only shows
its SUM; every other column shows all four formatted values. -/
def statsRowsStep (rows : StatsRows) (colv : String × StatV) : StatsRows :=
  if colv.1 = grandTotalCol then
    { sumRow := dictSet rows.sumRow colv.1 (format_value colv.2.sum)
      meanRow := dictSet rows.meanRow colv.1 "-"
      maxRow := dictSet rows.maxRow colv.1 "-"
      minRow := dictSet rows.minRow colv.1 "-" }
  else
    { sumRow := dictSet rows.sumRow colv.1 (format_value colv.2.sum)
      meanRow := dictSet rows.meanRow colv.1 (format_value colv.2.mean)
      maxRow := dictSet rows.maxRow colv.1 (format_value colv.2.max)
      minRow := dictSet rows.minRow colv.1 (format_value colv.2.min) }

def statsRows (df : DfStats) : StatsRows :=
  df.foldl statsRowsStep ⟨[], [], [], []⟩

/-- Python `str.strip()` on strings. -/
def pyStrip (s : String) : String := String.mk (stripL s.toList)

/-- Matcher for `a\s*b` (the first pattern of `clean_prompt_for_summary`). -/
def mLitGap (a b : List Char) (_prevRev s : List Char) : Option Nat :=
  if csPref a s then
    let rest := s.drop a.length
    let sp := dropSpaces rest
    if csPref b sp.2 then some (a.length + sp.1 + b.length - 1) else none
  else none

def cleanPhrases : List String :=
  ["보여줘", "데이터프레임", "알려줘", "구해줘", "리스트해줘", "정리해줘",
   "목록화해줘", "결과는", "합은", "총합은"]

/-- `SmartResponseEngine.clean_prompt_for_summary`. -/
def clean_prompt_for_summary (p : String) : String :=
  let p1 := stripL (scanSub (mLitGap "데이터프레임으로".toList "보여줘".toList) [] [] p.toList)
  let pn := cleanPhrases.foldl (fun q pat => stripL (scanSub (mLit pat.toList) [] [] q)) p1
  String.mk pn ++ " — 데이터 기반으로 AI 분석을 통해 인사이트와 활용방안을 제공합니다."

def insightFailurePrefix : String := "⚠️ 인사이트 생성 실패: "

/-- The summary template of step 5 of `generate_smart_response`. -/
def mkSummary (cleaned insightStripped : String) : String :=
  "📌 **AI 스마트 분석 결과**\n\n💬 분석 요청 요약: **" ++ cleaned ++
    "**\n\n🧠 **LLM 인사이트 요약:**\n\n" ++ insightStripped ++ "\n"

/-- `SmartResponseEngine.generate_smart_response`, with the external
text-generation call abstracted as its outcome (`.ok` narrative or
`.error` reason): the statistics table is built before the call, and a
failing call is replaced by the literal placeholder string. -/
def generate_smart_response (df : DfStats) (prompt : String)
    (llmResult : Except String String) : String × StatsRows :=
  let insight :=
    match llmResult with
    | .ok s => pyStrip s
    | .error e => insightFailurePrefix ++ e
  (mkSummary (clean_prompt_for_summary prompt) (pyStrip insight), statsRows df)

/-!  Concrete tables and string constants used by the statements, and the
token/scrub vocabulary of the assembly and removal lemmas. -/

def planColName : String := "사전제작○_B(H_UP구간)(3)_당초계획_길이"

/-- The canonical statistics map of the application (planned column before
actual column, exactly the order `analyze_dataframe` produces from the
loaded sheet), with planned sum 100 and actual sum 120. -/
def dfPlanActual : DfStats :=
  [(planColName, ⟨100, 100, 100, 100⟩), (prefabCol, ⟨120, 120, 120, 120⟩)]

def exampleInput : String := "5TFSP1001 2층 톡식가스 물량 알려줘"

def stdPhrase : String := "데이터프레임으로 보여줘"

/-- Does a rendered string contain a decimal point? -/
def hasDot (l : List Char) : Bool := l.any (fun c => c = '.')

def notDot (c : Char) : Bool := !(decide (c = '.'))

/-- Number of characters after the decimal point, `none` for an integer
rendering. -/
def decPlaces (s : String) : Option Nat :=
  if hasDot s.toList then some ((s.toList.reverse.takeWhile notDot).length)
  else none

/-- A small concrete table: the grand-total column and one ordinary column. -/
def dfSmall : DfStats :=
  [(grandTotalCol, ⟨6, 2, 3, 1⟩), ("사전제작X_비대상(일부공정)(1)_길이", ⟨4, 2, 3, 1⟩)]

/-- A table on which the prefab comparison fires: prefab 120 vs non-prefab
total 100. -/
def dfPrefab : DfStats :=
  [(prefabCol, ⟨120, 120, 120, 120⟩),
   ("사전제작X_비대상(일부공정)(1)_길이", ⟨100, 100, 100, 100⟩)]

/-- Python `str.strip` of the right end only. -/
def stripR (s : List Char) : List Char := (s.reverse.dropWhile isSpaceCh).reverse

/-- The placeholder without its trailing space: what survives stripping even
for an empty failure reason. -/
def failureMarker : String := "⚠️ 인사이트 생성 실패:"

def headNS (y : List Char) : Bool :=
  match y with
  | [] => true
  | c :: _ => !isSpaceCh c

def cleanAux : List Char → Bool
  | [] => true
  | [c] => !isSpaceCh c
  | c :: d :: r => (!isSpaceCh c || ((c = ' ') && !isSpaceCh d)) && cleanAux (d :: r)

def cleanTok (t : List Char) : Bool := !t.isEmpty && headNS t && cleanAux t

def okL : Option Char → Bool
  | none => true
  | some p => !isWordCh p

/-- `mWord false w` as a function of the single lookbehind character. -/
def mWordAt (w : List Char) (h : Option Char) (s : List Char) : Option Nat :=
  if okL h && csPref w s && boundaryR (s.drop w.length) then some (w.length - 1) else none

/-- `Scrub w h s out`: scanning `s` with previous original character `h`,
removing every whole-word occurrence of `w`, yields `out`. -/
inductive Scrub (w : List Char) : Option Char → List Char → List Char → Prop where
  | nil (h : Option Char) : Scrub w h [] []
  | keep (h : Option Char) (c : Char) (cs out : List Char)
      (hm : mWordAt w h (c :: cs) = none)
      (hrec : Scrub w (some c) cs out) : Scrub w h (c :: cs) (c :: out)
  | drop (h : Option Char) (rest out : List Char)
      (hok : okL h = true) (hbr : boundaryR rest = true)
      (hrec : Scrub w w.reverse.head? rest out) : Scrub w h (w ++ rest) out

/-!  Helper lemmas about the Python-dict model. -/

theorem find?_map_set {α : Type} (l : List (String × α)) (k : String) (v : α)
    (h : l.any (fun kv => kv.1 = k) = true) :
    (l.map (fun kv => if kv.1 = k then (k, v) else kv)).find?
        (fun kv => kv.1 = k) = some (k, v) := by
  induction l with
  | nil => simp at h
  | cons kv l ih =>
    by_cases hk : kv.1 = k
    · simp [List.find?, hk]
    · have h' : l.any (fun kv => kv.1 = k) = true := by simpa [hk] using h
      simp only [List.map_cons, List.find?, if_neg hk]
      simpa [hk] using ih h'

theorem find?_of_any_false {α : Type} (p : α → Bool) (l : List α)
    (h : l.any p = false) : l.find? p = none := by
  rw [List.find?_eq_none]
  intro x hx
  simpa using (List.any_eq_false).mp h x hx

/-- Assignment then lookup at the same key. -/
theorem dictGet_set_self {α : Type} (l : List (String × α)) (k : String) (v : α) :
    dictGet (dictSet l k v) k = some v := by
  unfold dictGet dictSet
  cases h : l.any (fun kv => kv.1 = k) with
  | true => simp [find?_map_set l k v h]
  | false => simp [List.find?_append, find?_of_any_false _ _ h, List.find?]

/-- Lookup at a key untouched by the in-place-update map. -/
theorem find?_map_set_other {α : Type} (l : List (String × α)) (k k' : String) (v : α)
    (h : k' ≠ k) :
    (l.map (fun kv => if kv.1 = k then (k, v) else kv)).find? (fun kv => kv.1 = k')
      = l.find? (fun kv => kv.1 = k') := by
  induction l with
  | nil => rfl
  | cons kv l ih =>
    by_cases hk : kv.1 = k
    · simp only [List.map_cons, if_pos hk, List.find?_cons]
      have h1 : (decide ((k, v).1 = k')) = false := by simp [Ne.symm h]
      have h2 : (decide (kv.1 = k')) = false := by simp [hk, Ne.symm h]
      rw [h1, h2]
      exact ih
    · simp only [List.map_cons, if_neg hk, List.find?_cons]
      by_cases hd : kv.1 = k'
      · rw [show (decide (kv.1 = k')) = true by simpa using hd]
      · rw [show (decide (kv.1 = k')) = false by simpa using hd]
        exact ih

/-- Assignment then lookup at a different key. -/
theorem dictGet_set_other {α : Type} (l : List (String × α)) (k k' : String) (v : α)
    (h : k' ≠ k) : dictGet (dictSet l k v) k' = dictGet l k' := by
  unfold dictGet dictSet
  cases ha : l.any (fun kv => kv.1 = k) with
  | true => simp only [if_true, find?_map_set_other l k k' v h]
  | false =>
    simp only [Bool.false_eq_true, if_false]
    rw [List.find?_append]
    cases hfind : l.find? (fun kv => kv.1 = k') with
    | some kv => simp
    | none =>
      have hone : ([(k, v)].find? (fun kv => kv.1 = k')) = none := by
        rw [List.find?_cons_of_neg _ (by simp [Ne.symm h])]
        rfl
      simp [hone]

/-!  Claim C1. -/

/-- Claim C1 (code bug): the plan-vs-actual block does compute
ratio 120.0, diff 20.0 and the 'more than planned' trend for planned
sum 100 / actual sum 120, and writes them under the actual column's key —
but the loop then executes `stats_json[col] = entry` for the actual column
itself, which overwrites that entry, so the assembled payload's entry for
the actual column holds only its `sum` and none of the plan-vs-actual
fields.  Evaluated at the canonical two-column statistics map. -/
theorem C1_plan_fields_overwritten :
    planFields 100 120 =
      [("plan_to_real_ratio", .num 120), ("plan_to_real_diff", .num 20),
       ("plan_to_real_trend", .fstr "시공이 계획보다 많음")] ∧
    dictGet (statsJsonFull dfPlanActual) prefabCol = some [("sum", FVal.num 120)] ∧
    (dictGetD (statsJsonFull dfPlanActual) prefabCol []).any
        (fun kv => kv.1 = "plan_to_real_ratio") = false ∧
    (dictGetD (statsJsonFull dfPlanActual) prefabCol []).any
        (fun kv => kv.1 = "plan_to_real_diff") = false ∧
    (dictGetD (statsJsonFull dfPlanActual) prefabCol []).any
        (fun kv => kv.1 = "plan_to_real_trend") = false := by
  refine ⟨by decide, by decide,
    by decide, by decide, by decide⟩

/-!  Claim C2. -/

set_option maxRecDepth 1000000 in
/-- Claim C2 (confirmed): on `"5TFSP1001 2층 톡식가스 물량 알려줘"` the
directive is the three conditions `(Floor == "2F")`, `(UT == "Toxic Gas")`,
`(장비명 == "5TFSP1001")` joined with `" AND "` in that order, followed by a
remainder ending in the standardized phrase, and none of the matched tokens
`2층`, `톡식가스`, `5TFSP1001` survives outside the conditions. -/
theorem C2_example_directive :
    process exampleInput =
      mkFloorCond "2F" ++ " AND " ++ mkUTCond "Toxic Gas" ++ " AND " ++
        mkDevCond "5TFSP1001" ++ " " ++ "물량들 " ++ stdPhrase ∧
    (processParts exampleInput.toList).conds =
      [mkFloorCond "2F", mkUTCond "Toxic Gas", mkDevCond "5TFSP1001"] ∧
    String.mk (processParts exampleInput.toList).remainder = "물량들 " ++ stdPhrase ∧
    containsStr "2층" (String.mk (processParts exampleInput.toList).remainder) = false ∧
    containsStr "톡식가스" (String.mk (processParts exampleInput.toList).remainder) = false ∧
    containsStr "5TFSP1001" (String.mk (processParts exampleInput.toList).remainder) = false := by
  refine ⟨by decide, by decide, by decide, by decide, by decide, by decide⟩

/-!  Claim C9. -/

theorem digitCh_digit : ∀ k : Nat, isDigitCh (digitCh k) = true := by
  intro k
  match k with
  | 0 | 1 | 2 | 3 | 4 | 5 | 6 | 7 | 8 | 9 => decide
  | n + 10 => exact (by decide : isDigitCh '0' = true)

theorem natStrGo_digits :
    ∀ fuel n : Nat, ∀ c ∈ natStrGo fuel n, isDigitCh c = true := by
  intro fuel
  induction fuel with
  | zero => intro n c hc; simp [natStrGo] at hc
  | succ fuel ih =>
    intro n c hc
    by_cases h : n < 10
    · simp only [natStrGo, if_pos h, List.mem_singleton] at hc
      subst hc
      exact digitCh_digit n
    · simp only [natStrGo, if_neg h, List.mem_append, List.mem_singleton] at hc
      rcases hc with hc | hc
      · exact ih _ c hc
      · subst hc; exact digitCh_digit _

theorem natStr_digits (n : Nat) : ∀ c ∈ (natStr n).toList, isDigitCh c = true :=
  fun c hc => natStrGo_digits (n + 1) n c hc

theorem hasDot_of_digits (l : List Char) (h : ∀ c ∈ l, isDigitCh c = true) :
    hasDot l = false := by
  simp only [hasDot, List.any_eq_false]
  intro c hc hd
  have hcd : c = '.' := of_decide_eq_true hd
  subst hcd
  exact absurd (h _ hc) (by decide)

theorem decPlaces_intStr (i : ℤ) : decPlaces (intStr i) = none := by
  have hd : hasDot (intStr i).toList = false := by
    unfold intStr
    by_cases h : i < 0
    · rw [if_pos h]
      have : ("-" ++ natStr i.natAbs).toList = '-' :: (natStr i.natAbs).toList := by
        show ("-" ++ natStr i.natAbs).data = '-' :: (natStr i.natAbs).data
        rw [String.data_append]
        rfl
      rw [this]
      simp only [hasDot, List.any_cons, Bool.or_eq_false_iff]
      exact ⟨by decide, hasDot_of_digits _ (natStr_digits _)⟩
    · rw [if_neg h]
      exact hasDot_of_digits _ (natStr_digits _)
  unfold decPlaces
  rw [hd]
  rfl

theorem natStrGo_single (fuel n : Nat) (hf : 1 ≤ fuel) (h : n < 10) :
    natStrGo fuel n = [digitCh n] := by
  cases fuel with
  | zero => omega
  | succ fuel => simp [natStrGo, h]

theorem natStr_len_one (n : Nat) (h : n < 10) : (natStr n).toList.length = 1 := by
  show (natStrGo (n + 1) n).length = 1
  rw [natStrGo_single _ _ (by omega) h]
  rfl

theorem natStr_len_two (n : Nat) (h10 : 10 ≤ n) (h100 : n < 100) :
    (natStr n).toList.length = 2 := by
  show (natStrGo (n + 1) n).length = 2
  have h : ¬ n < 10 := by omega
  simp only [natStrGo, if_neg h]
  rw [natStrGo_single n (n / 10) (by omega) (by omega)]
  rfl

theorem takeWhile_all_stop (p : Char → Bool) (F R : List Char) (x : Char)
    (hF : ∀ c ∈ F, p c = true) (hx : p x = false) :
    (F ++ x :: R).takeWhile p = F := by
  induction F with
  | nil => simp [List.takeWhile_cons, hx]
  | cons c F ih =>
    rw [List.cons_append, List.takeWhile_cons, hF c (List.mem_cons_self c F)]
    rw [ih (fun d hd => hF d (List.mem_cons_of_mem c hd))]
    simp

theorem decPlaces_fmt2 (q : ℚ) : decPlaces (fmt2 q) = some 2 := by
  unfold fmt2
  set m := halfEvenInt (qmul q 100) with hm
  set a := m.natAbs with ha
  set sgn := (if m < 0 then "-" else "") with hsgn
  set pad := (if a % 100 < 10 then "0" else "") with hpad
  have hlist : (sgn ++ natStr (a / 100) ++ "." ++ pad ++ natStr (a % 100)).toList =
      (sgn.toList ++ (natStr (a / 100)).toList) ++
        '.' :: (pad.toList ++ (natStr (a % 100)).toList) := by
    show String.data _ = _
    simp only [String.data_append]
    simp [List.append_assoc]
  have hfrac : ∀ c ∈ pad.toList ++ (natStr (a % 100)).toList, notDot c = true := by
    intro c hc
    rcases List.mem_append.mp hc with hc | hc
    · rw [hpad] at hc
      by_cases hp : a % 100 < 10
      · rw [if_pos hp, show ("0" : String).toList = ['0'] from rfl] at hc
        simp only [List.mem_singleton] at hc
        subst hc; decide
      · rw [if_neg hp, show ("" : String).toList = [] from rfl] at hc
        exact absurd hc (List.not_mem_nil c)
    · have hd := natStr_digits _ c hc
      have hne : c ≠ '.' := fun hcd => by
        rw [hcd] at hd
        exact absurd hd (by decide)
      simp [notDot, hne]
  have hfraclen : (pad.toList ++ (natStr (a % 100)).toList).length = 2 := by
    rw [List.length_append]
    by_cases hp : a % 100 < 10
    · rw [hpad, if_pos hp, natStr_len_one _ hp]
      rfl
    · rw [hpad, if_neg hp, natStr_len_two _ (by omega) (Nat.mod_lt _ (by omega))]
      rfl
  unfold decPlaces
  rw [hlist]
  have hdot : hasDot ((sgn.toList ++ (natStr (a / 100)).toList) ++
      '.' :: (pad.toList ++ (natStr (a % 100)).toList)) = true := by
    simp [hasDot, List.any_append]
  rw [hdot]
  simp only [if_true]
  rw [List.reverse_append, List.reverse_cons, List.append_assoc, List.singleton_append]
  rw [takeWhile_all_stop notDot _ _ '.'
    (fun c hc => hfrac c (List.mem_reverse.mp hc)) (by decide)]
  rw [List.length_reverse, hfraclen]

/-- Claim C9 (confirmed): for every float `v` (modelled exactly in ℚ),
`format_value` renders `round(v, 2)`: when the rounded value equals its
integer truncation the result is the integer's decimal string and carries
no decimal places, otherwise it is the fixed-point rendering with exactly
two decimal places; in particular `10.00 ↦ "10"` and `10.256 ↦ "10.26"`. -/
theorem C9_format_value :
    ∀ v : ℚ,
      (pyRound v 2 = mkRat (intTrunc (pyRound v 2)) 1 →
        format_value v = intStr (intTrunc (pyRound v 2)) ∧
          decPlaces (format_value v) = none) ∧
      (pyRound v 2 ≠ mkRat (intTrunc (pyRound v 2)) 1 →
        format_value v = fmt2 (pyRound v 2) ∧
          decPlaces (format_value v) = some 2) ∧
      format_value 10 = "10" ∧ format_value (mkRat 10256 1000) = "10.26" := by
  intro v
  refine ⟨fun h => ?_, fun h => ?_,
    by decide, by decide⟩
  · have hfv : format_value v = intStr (intTrunc (pyRound v 2)) := by
      simp only [format_value]
      rw [if_pos h]
    exact ⟨hfv, by rw [hfv]; exact decPlaces_intStr _⟩
  · have hfv : format_value v = fmt2 (pyRound v 2) := by
      simp only [format_value]
      rw [if_neg h]
    exact ⟨hfv, by rw [hfv]; exact decPlaces_fmt2 _⟩

/-- Witness for C9 at `v = 10.256`: the rounded value is not integral, and
the rendering carries exactly two decimal places. -/
theorem C9_format_value_witness :
    pyRound (mkRat 10256 1000) 2 ≠ mkRat (intTrunc (pyRound (mkRat 10256 1000) 2)) 1 ∧
    format_value (mkRat 10256 1000) = fmt2 (pyRound (mkRat 10256 1000) 2) ∧
    decPlaces (format_value (mkRat 10256 1000)) = some 2 :=
  ⟨by decide,
   (C9_format_value (mkRat 10256 1000)).2.1 (by decide)⟩

/-!  Claim C10. -/

/-- One step of the statistics table never disturbs other columns. -/
theorem statsRowsStep_keeps (rows : StatsRows) (kv : String × StatV) (col : String)
    (h : col ≠ kv.1) :
    dictGet (statsRowsStep rows kv).sumRow col = dictGet rows.sumRow col ∧
    dictGet (statsRowsStep rows kv).meanRow col = dictGet rows.meanRow col ∧
    dictGet (statsRowsStep rows kv).maxRow col = dictGet rows.maxRow col ∧
    dictGet (statsRowsStep rows kv).minRow col = dictGet rows.minRow col := by
  unfold statsRowsStep
  by_cases hg : kv.1 = grandTotalCol
  · rw [if_pos hg]
    exact ⟨dictGet_set_other _ _ _ _ h, dictGet_set_other _ _ _ _ h,
      dictGet_set_other _ _ _ _ h, dictGet_set_other _ _ _ _ h⟩
  · rw [if_neg hg]
    exact ⟨dictGet_set_other _ _ _ _ h, dictGet_set_other _ _ _ _ h,
      dictGet_set_other _ _ _ _ h, dictGet_set_other _ _ _ _ h⟩

/-- Folding further columns never disturbs an absent column. -/
theorem statsRows_foldl_keeps (df : DfStats) (init : StatsRows) (col : String)
    (h : ∀ kv ∈ df, col ≠ kv.1) :
    dictGet (df.foldl statsRowsStep init).sumRow col = dictGet init.sumRow col ∧
    dictGet (df.foldl statsRowsStep init).meanRow col = dictGet init.meanRow col ∧
    dictGet (df.foldl statsRowsStep init).maxRow col = dictGet init.maxRow col ∧
    dictGet (df.foldl statsRowsStep init).minRow col = dictGet init.minRow col := by
  induction df generalizing init with
  | nil => exact ⟨rfl, rfl, rfl, rfl⟩
  | cons kv df ih =>
    have hstep := statsRowsStep_keeps init kv col (h kv (List.mem_cons_self kv df))
    have hrest := ih (statsRowsStep init kv) (fun kv' h' => h kv' (List.mem_cons_of_mem kv h'))
    rw [List.foldl_cons]
    exact ⟨hrest.1.trans hstep.1, hrest.2.1.trans hstep.2.1,
      hrest.2.2.1.trans hstep.2.2.1, hrest.2.2.2.trans hstep.2.2.2⟩

/-- The statistics-table fold renders each column (with distinct keys)
exactly once: SUM always formatted, the other three rows formatted except
that the grand-total column shows `"-"`. -/
theorem statsRows_foldl_lookup (df : DfStats) (init : StatsRows)
    (hnd : (df.map Prod.fst).Nodup) :
    ∀ colv ∈ df,
      dictGet (df.foldl statsRowsStep init).sumRow colv.1 =
        some (format_value colv.2.sum) ∧
      dictGet (df.foldl statsRowsStep init).meanRow colv.1 =
        some (if colv.1 = grandTotalCol then "-" else format_value colv.2.mean) ∧
      dictGet (df.foldl statsRowsStep init).maxRow colv.1 =
        some (if colv.1 = grandTotalCol then "-" else format_value colv.2.max) ∧
      dictGet (df.foldl statsRowsStep init).minRow colv.1 =
        some (if colv.1 = grandTotalCol then "-" else format_value colv.2.min) := by
  induction df generalizing init with
  | nil => intro colv h; exact absurd h (List.not_mem_nil colv)
  | cons kv df ih =>
    intro colv hm
    rw [List.map_cons, List.nodup_cons] at hnd
    rcases List.mem_cons.mp hm with rfl | hm'
    · rw [List.foldl_cons]
      have hne : ∀ kv' ∈ df, colv.1 ≠ kv'.1 := by
        intro kv' h' heq
        exact hnd.1 (heq ▸ List.mem_map_of_mem Prod.fst h')
      have hkeep := statsRows_foldl_keeps df (statsRowsStep init colv) colv.1 hne
      by_cases hg : colv.1 = grandTotalCol
      · have h1 : dictGet (statsRowsStep init colv).sumRow colv.1 =
            some (format_value colv.2.sum) := by
          unfold statsRowsStep; rw [if_pos hg]; exact dictGet_set_self _ _ _
        have h2 : dictGet (statsRowsStep init colv).meanRow colv.1 = some "-" := by
          unfold statsRowsStep; rw [if_pos hg]; exact dictGet_set_self _ _ _
        have h3 : dictGet (statsRowsStep init colv).maxRow colv.1 = some "-" := by
          unfold statsRowsStep; rw [if_pos hg]; exact dictGet_set_self _ _ _
        have h4 : dictGet (statsRowsStep init colv).minRow colv.1 = some "-" := by
          unfold statsRowsStep; rw [if_pos hg]; exact dictGet_set_self _ _ _
        simp only [if_pos hg]
        exact ⟨hkeep.1.trans h1, hkeep.2.1.trans h2,
          hkeep.2.2.1.trans h3, hkeep.2.2.2.trans h4⟩
      · have h1 : dictGet (statsRowsStep init colv).sumRow colv.1 =
            some (format_value colv.2.sum) := by
          unfold statsRowsStep; rw [if_neg hg]; exact dictGet_set_self _ _ _
        have h2 : dictGet (statsRowsStep init colv).meanRow colv.1 =
            some (format_value colv.2.mean) := by
          unfold statsRowsStep; rw [if_neg hg]; exact dictGet_set_self _ _ _
        have h3 : dictGet (statsRowsStep init colv).maxRow colv.1 =
            some (format_value colv.2.max) := by
          unfold statsRowsStep; rw [if_neg hg]; exact dictGet_set_self _ _ _
        have h4 : dictGet (statsRowsStep init colv).minRow colv.1 =
            some (format_value colv.2.min) := by
          unfold statsRowsStep; rw [if_neg hg]; exact dictGet_set_self _ _ _
        simp only [if_neg hg]
        exact ⟨hkeep.1.trans h1, hkeep.2.1.trans h2,
          hkeep.2.2.1.trans h3, hkeep.2.2.2.trans h4⟩
    · exact ih (statsRowsStep init kv) hnd.2 colv hm'

/-- Claim C10 (confirmed): in the statistics table, the grand-total column
`합계(1+2+4+5)` carries a formatted value only in its SUM cell while its
MEAN/MAX/MIN cells are the literal `"-"`; every other column has all four
cells rendered by the formatting rule. -/
theorem C10_grand_total_row :
    ∀ df : DfStats, (df.map Prod.fst).Nodup →
      ∀ colv ∈ df,
        (colv.1 = grandTotalCol →
          dictGet (statsRows df).sumRow colv.1 = some (format_value colv.2.sum) ∧
          dictGet (statsRows df).meanRow colv.1 = some "-" ∧
          dictGet (statsRows df).maxRow colv.1 = some "-" ∧
          dictGet (statsRows df).minRow colv.1 = some "-") ∧
        (colv.1 ≠ grandTotalCol →
          dictGet (statsRows df).sumRow colv.1 = some (format_value colv.2.sum) ∧
          dictGet (statsRows df).meanRow colv.1 = some (format_value colv.2.mean) ∧
          dictGet (statsRows df).maxRow colv.1 = some (format_value colv.2.max) ∧
          dictGet (statsRows df).minRow colv.1 = some (format_value colv.2.min)) := by
  intro df hnd colv hm
  have h := statsRows_foldl_lookup df ⟨[], [], [], []⟩ hnd colv hm
  constructor
  · intro hg
    simp only [if_pos hg] at h
    exact ⟨h.1, h.2.1, h.2.2.1, h.2.2.2⟩
  · intro hg
    simp only [if_neg hg] at h
    exact ⟨h.1, h.2.1, h.2.2.1, h.2.2.2⟩

/-- Witness for C10 on `dfSmall`. -/
theorem C10_grand_total_row_witness :
    dictGet (statsRows dfSmall).sumRow grandTotalCol = some (format_value 6) ∧
    dictGet (statsRows dfSmall).meanRow grandTotalCol = some "-" ∧
    dictGet (statsRows dfSmall).maxRow grandTotalCol = some "-" ∧
    dictGet (statsRows dfSmall).minRow grandTotalCol = some "-" :=
  (C10_grand_total_row dfSmall (by decide) (grandTotalCol, ⟨6, 2, 3, 1⟩)
    (by decide)).1 rfl

/-!  Claim C7. -/

/-- Claim C7 (confirmed): when the sum of the three non-prefab columns is
positive, the payload carries the `사전제작_비진행_비교` entry with the
rounded ratio and a trend chosen among exactly three literal branches; when
that sum is not positive the block adds nothing; and an exception inside
the block is caught and replaced by an inline error object under the same
key instead of aborting. -/
theorem C7_prefab_comparison :
    ∀ df : DfStats,
      (qlt 0 (nonPreFabSum df) = true →
        dictGet (statsJsonFull df) prefabKey =
          some [("사전제작_물량합계", .num (pyRound (preFabSum df) 2)),
                ("비진행_물량합계", .num (pyRound (nonPreFabSum df) 2)),
                ("사전제작_비율(비진행_기준%)",
                  .num (pyRound (qmul (qdiv (preFabSum df) (nonPreFabSum df)) 100) 1)),
                ("비교결과",
                  .fstr (prefabTrend
                    (pyRound (qmul (qdiv (preFabSum df) (nonPreFabSum df)) 100) 1)))]) ∧
      (∀ r : ℚ,
        (qlt 100 r = true →
          prefabTrend r = "사전제작 진행물량은 비진행 물량보다 " ++
            floatRepr (pyRound (qdiv r 100) 2) ++ "배 많습니다.") ∧
        (r = 100 →
          prefabTrend r = "사전제작 진행물량과 비진행 물량은 동일한 수준입니다.") ∧
        (qlt 100 r = false → r ≠ 100 →
          prefabTrend r = "사전제작 진행물량은 비진행 물량 대비 " ++
            floatRepr r ++ "% 수준으로 상대적으로 적습니다.")) ∧
      (qlt 0 (nonPreFabSum df) = false → statsJsonFull df = statsJsonBase df) ∧
      (∀ (json : Payload) (e : String),
        prefabBlock json (.error e) = dictSet json prefabKey [("오류", .fstr e)]) := by
  intro df
  refine ⟨fun h => ?_, fun r => ⟨fun h => ?_, fun h => ?_, fun h hne => ?_⟩,
    fun h => ?_, fun json e => rfl⟩
  · unfold statsJsonFull prefabEntryOf
    rw [if_pos h]
    exact dictGet_set_self _ _ _
  · unfold prefabTrend
    rw [if_pos h]
  · subst h
    rfl
  · unfold prefabTrend
    rw [if_neg (by simp [h]), if_neg hne]
  · unfold statsJsonFull prefabEntryOf
    rw [if_neg (by simp [h])]
    rfl

/-- Witness for C7 on `dfPrefab` (ratio 120.0, first trend branch). -/
theorem C7_prefab_comparison_witness :
    qlt 0 (nonPreFabSum dfPrefab) = true ∧
    dictGet (statsJsonFull dfPrefab) prefabKey =
      some [("사전제작_물량합계", .num (pyRound (preFabSum dfPrefab) 2)),
            ("비진행_물량합계", .num (pyRound (nonPreFabSum dfPrefab) 2)),
            ("사전제작_비율(비진행_기준%)",
              .num (pyRound (qmul (qdiv (preFabSum dfPrefab) (nonPreFabSum dfPrefab)) 100) 1)),
            ("비교결과",
              .fstr (prefabTrend
                (pyRound (qmul (qdiv (preFabSum dfPrefab) (nonPreFabSum dfPrefab)) 100) 1)))] :=
  ⟨by decide,
   (C7_prefab_comparison dfPrefab).1 (by decide)⟩

/-!  Claim C8. -/

theorem csPref_append_self (x r : List Char) : csPref x (x ++ r) = true := by
  induction x with
  | nil => rfl
  | cons c x ih => simp [csPref, ih]

theorem containsL_append_right (x a s : List Char) (h : containsL x s = true) :
    containsL x (a ++ s) = true := by
  induction a with
  | nil => simpa using h
  | cons c a ih =>
    rw [List.cons_append]
    show (csPref x (c :: (a ++ s)) || containsL x (a ++ s)) = true
    rw [ih]
    simp

theorem containsL_append_head (x b : List Char) : containsL x (x ++ b) = true := by
  cases x with
  | nil =>
    cases b with
    | nil => rfl
    | cons c cs =>
      show (csPref [] (c :: cs) || _) = true
      rfl
  | cons c p =>
    show (csPref (c :: p) ((c :: p) ++ b) || _) = true
    rw [csPref_append_self]
    simp

/-- Stripping a string that starts and ends with a protected non-space
prefix `P` keeps `P` intact. -/
theorem stripL_append (P r : List Char) (c₀ : Char) (hP : P.head? = some c₀)
    (h0 : isSpaceCh c₀ = false) (cL : Char) (hL : P.getLast? = some cL)
    (hLs : isSpaceCh cL = false) :
    stripL (P ++ r) = P ++ stripR r := by
  unfold stripL stripR
  obtain ⟨c, P', rfl⟩ : ∃ c P', P = c :: P' := by
    cases P with
    | nil => simp at hP
    | cons c P' => exact ⟨c, P', rfl⟩
  have hc : c = c₀ := by simpa using hP
  subst hc
  have hdw : ((c :: P') ++ r).dropWhile isSpaceCh = (c :: P') ++ r := by
    rw [List.cons_append, List.dropWhile_cons, h0]
    simp
  rw [hdw, List.reverse_append, List.dropWhile_append]
  by_cases he : (r.reverse.dropWhile isSpaceCh).isEmpty
  · rw [if_pos he]
    have hrev : (c :: P').reverse.dropWhile isSpaceCh = (c :: P').reverse := by
      cases hrv : (c :: P').reverse with
      | nil => simp at hrv
      | cons d rest =>
        have h1 : (c :: P').reverse.head? = some d := by rw [hrv]; rfl
        rw [List.head?_reverse, hL] at h1
        have hd : d = cL := (Option.some_inj.mp h1).symm
        rw [List.dropWhile_cons, hd, hLs]
        simp
    rw [hrev, List.reverse_reverse]
    have hempty : r.reverse.dropWhile isSpaceCh = [] := by
      simpa [List.isEmpty_iff] using he
    rw [hempty]
    simp
  · rw [if_neg he]
    rw [List.reverse_append, List.reverse_reverse]

theorem insight_failure_strip (e : String) :
    (pyStrip (insightFailurePrefix ++ e)).toList =
      failureMarker.toList ++ stripR (' ' :: e.toList) := by
  show stripL (String.data (insightFailurePrefix ++ e)) = _
  rw [String.data_append]
  have hsplit : insightFailurePrefix.data = failureMarker.toList ++ [' '] := by decide
  rw [hsplit, List.append_assoc]
  exact stripL_append _ _ '⚠' (by decide) (by decide) ':' (by decide) (by decide)

/-- Claim C8 (confirmed): if the external text-generation call fails, the
insight is replaced by the literal placeholder embedding the reason, the
returned summary embeds that placeholder, and the statistics table is the
same fully-populated table as for any other call outcome. -/
theorem C8_insight_failure :
    ∀ (df : DfStats) (prompt e : String),
      (generate_smart_response df prompt (.error e)).1 =
        mkSummary (clean_prompt_for_summary prompt)
          (pyStrip (insightFailurePrefix ++ e)) ∧
      containsStr failureMarker (generate_smart_response df prompt (.error e)).1 = true ∧
      (∀ res : Except String String,
        (generate_smart_response df prompt (.error e)).2 =
          (generate_smart_response df prompt res).2) ∧
      ((df.map Prod.fst).Nodup → ∀ colv ∈ df,
        dictGet (generate_smart_response df prompt (.error e)).2.sumRow colv.1 =
          some (format_value colv.2.sum)) := by
  intro df prompt e
  refine ⟨rfl, ?_, fun res => rfl, fun hnd colv hm =>
    (statsRows_foldl_lookup df ⟨[], [], [], []⟩ hnd colv hm).1⟩
  show containsL failureMarker.toList
      (String.data (mkSummary (clean_prompt_for_summary prompt)
        (pyStrip (insightFailurePrefix ++ e)))) = true
  unfold mkSummary
  simp only [String.data_append]
  rw [show (pyStrip (insightFailurePrefix ++ e)).data =
        failureMarker.toList ++ stripR (' ' :: e.toList) from insight_failure_strip e]
  simp only [List.append_assoc]
  apply containsL_append_right
  apply containsL_append_right
  apply containsL_append_right
  exact containsL_append_head _ _

/-- Witness for C8: concrete table, prompt and failure reason. -/
theorem C8_insight_failure_witness :
    (dfSmall.map Prod.fst).Nodup ∧
    dictGet (generate_smart_response dfSmall "물량 알려줘" (.error "boom")).2.sumRow
      grandTotalCol = some (format_value 6) := by
  refine ⟨by decide, ?_⟩
  exact (C8_insight_failure dfSmall "물량 알려줘" "boom").2.2.2 (by decide)
    (grandTotalCol, ⟨6, 2, 3, 1⟩) (by decide)

/-!  Token machinery: a clause whose whitespace consists of isolated single
spaces survives the final whitespace collapse and trim of `assemble`. -/

theorem csPref_to_split : ∀ (t s : List Char), csPref t s = true → ∃ r, s = t ++ r := by
  intro t
  induction t with
  | nil => exact fun s _ => ⟨s, rfl⟩
  | cons a t ih =>
    intro s h
    cases s with
    | nil => simp [csPref] at h
    | cons b bs =>
      simp only [csPref, Bool.and_eq_true, decide_eq_true_eq] at h
      obtain ⟨r, rfl⟩ := ih bs h.2
      obtain rfl : b = a := h.1
      exact ⟨r, rfl⟩

theorem containsL_to_split : ∀ (t s : List Char), containsL t s = true → ∃ x y, s = x ++ (t ++ y) := by
  intro t s
  induction s with
  | nil =>
    intro h
    obtain ⟨r, hr⟩ := csPref_to_split t [] h
    exact ⟨[], r, hr⟩
  | cons c cs ih =>
    intro h
    rcases Bool.or_eq_true_iff.mp h with h' | h'
    · obtain ⟨r, hr⟩ := csPref_to_split t (c :: cs) h'
      exact ⟨[], r, hr⟩
    · obtain ⟨x, y, rfl⟩ := ih h'
      exact ⟨c :: x, y, rfl⟩

theorem dropSpaces_fst_le (x y : List Char) (hy : headNS y = true) :
    (dropSpaces (x ++ y)).1 ≤ x.length := by
  induction x with
  | nil =>
    cases y with
    | nil => simp [dropSpaces]
    | cons c cs =>
      have hns : isSpaceCh c = false := by simpa [headNS] using hy
      simp [dropSpaces, hns]
  | cons c x ih =>
    by_cases hc : isSpaceCh c = true
    · have hstep : dropSpaces ((c :: x) ++ y) =
          ((dropSpaces (x ++ y)).1 + 1, (dropSpaces (x ++ y)).2) := by
        simp [dropSpaces, hc]
      rw [hstep]
      simpa using Nat.succ_le_succ ih
    · have hc' : isSpaceCh c = false := by simpa using hc
      simp [dropSpaces, hc']

theorem dropSpaces_fst_zero (y : List Char) (hy : headNS y = true) :
    (dropSpaces y).1 = 0 := by
  cases y with
  | nil => rfl
  | cons c cs =>
    have hns : isSpaceCh c = false := by simpa [headNS] using hy
    simp [dropSpaces, hns]

theorem scanSubGo_cons_none (m : List Char → List Char → Option Nat)
    (repl : List Char) (f : Nat) (pr : List Char) (c : Char) (cs : List Char)
    (hm : m pr (c :: cs) = none) :
    scanSubGo m repl (f + 1) pr (c :: cs) = c :: scanSubGo m repl f (c :: pr) cs := by
  rw [scanSubGo, hm]

theorem scanSubGo_cons_some (m : List Char → List Char → Option Nat)
    (repl : List Char) (f : Nat) (pr : List Char) (c : Char) (cs : List Char) (n : Nat)
    (hm : m pr (c :: cs) = some n) :
    scanSubGo m repl (f + 1) pr (c :: cs) =
      repl ++ scanSubGo m repl f (((c :: cs).take (n+1)).reverse ++ pr) (cs.drop n) := by
  rw [scanSubGo, hm]

theorem cleanAux_tail (c : Char) (t : List Char) (h : cleanAux (c :: t) = true) :
    cleanAux t = true := by
  cases t with
  | nil => rfl
  | cons d r =>
    have h0 : ((!isSpaceCh c || ((c = ' ') && !isSpaceCh d)) && cleanAux (d :: r)) = true := h
    exact ((Bool.and_eq_true _ _).mp h0).2

theorem scanSpaces_token :
    ∀ (t b pr : List Char) (fuel : Nat), cleanAux t = true →
      (t ++ b).length ≤ fuel →
      scanSubGo mSpaces [' '] fuel pr (t ++ b) =
        t ++ scanSubGo mSpaces [' '] (fuel - t.length) (t.reverse ++ pr) b := by
  intro t
  induction t with
  | nil => intro b pr fuel _ _; simp
  | cons c t ih =>
    intro b pr fuel hclean hlen
    obtain ⟨f, rfl⟩ : ∃ f, fuel = f + 1 := by
      cases fuel with
      | zero => simp at hlen
      | succ f => exact ⟨f, rfl⟩
    have hlen' : (t ++ b).length ≤ f := by
      simp only [List.cons_append, List.length_cons] at hlen
      omega
    have hclean' : cleanAux t = true := cleanAux_tail c t hclean
    by_cases hc : isSpaceCh c = true
    · obtain ⟨d, t', rfl⟩ : ∃ d t', t = d :: t' := by
        cases t with
        | nil =>
          rw [show cleanAux [c] = !isSpaceCh c from rfl, hc] at hclean
          simp at hclean
        | cons d t' => exact ⟨d, t', rfl⟩
      have hpair : (c = ' ') ∧ isSpaceCh d = false := by
        have h0 : ((!isSpaceCh c || ((c = ' ') && !isSpaceCh d)) &&
            cleanAux (d :: t')) = true := hclean
        rw [hc] at h0
        simp only [Bool.not_true, Bool.false_or, Bool.and_eq_true,
          decide_eq_true_eq, Bool.not_eq_true'] at h0
        exact ⟨h0.1.1, h0.1.2⟩
      obtain rfl : c = ' ' := hpair.1
      have hm : mSpaces pr (' ' :: ((d :: t') ++ b)) = some 0 := by
        show (if isSpaceCh ' ' = true
            then some (dropSpaces ((d :: t') ++ b)).1 else none) = some 0
        rw [if_pos (by decide)]
        rw [dropSpaces_fst_zero _ (by simp [headNS, hpair.2])]
      rw [List.cons_append, scanSubGo_cons_some _ _ _ _ _ _ _ hm, List.drop_zero]
      rw [ih b (((' ' :: ((d :: t') ++ b)).take 1).reverse ++ pr) f hclean' hlen']
      simp [List.reverse_cons, List.append_assoc, Nat.succ_sub_succ]
    · have hm : mSpaces pr (c :: (t ++ b)) = none := by
        show (if isSpaceCh c = true then some (dropSpaces (t ++ b)).1 else none) = none
        rw [if_neg (by simp [hc])]
      rw [List.cons_append, scanSubGo_cons_none _ _ _ _ _ _ hm]
      rw [ih b (c :: pr) f hclean' hlen']
      simp [List.reverse_cons, List.append_assoc, Nat.succ_sub_succ]

theorem scanSpaces_reach :
    ∀ (fuel : Nat) (a r pr : List Char), headNS r = true →
      (a ++ r).length ≤ fuel →
      ∃ out fuel' pr', r.length ≤ fuel' ∧
        scanSubGo mSpaces [' '] fuel pr (a ++ r) =
          out ++ scanSubGo mSpaces [' '] fuel' pr' r := by
  intro fuel
  induction fuel with
  | zero =>
    intro a r pr hr hlen
    refine ⟨[], 0, pr, by simp only [List.length_append] at hlen; omega, ?_⟩
    have ha : a = [] := by
      cases a with
      | nil => rfl
      | cons c cs => simp at hlen
    subst ha
    rfl
  | succ f ih =>
    intro a r pr hr hlen
    cases a with
    | nil => exact ⟨[], f + 1, pr, by simpa using hlen, rfl⟩
    | cons c a' =>
      by_cases hc : isSpaceCh c = true
      · have hn : mSpaces pr (c :: (a' ++ r)) = some (dropSpaces (a' ++ r)).1 := by
          show (if isSpaceCh c = true then some (dropSpaces (a' ++ r)).1 else none) = _
          rw [if_pos hc]
        have hnle : (dropSpaces (a' ++ r)).1 ≤ a'.length := dropSpaces_fst_le a' r hr
        rw [List.cons_append, scanSubGo_cons_some _ _ _ _ _ _ _ hn]
        rw [List.drop_append_of_le_length hnle]
        have hlen2 : (a'.drop (dropSpaces (a' ++ r)).1 ++ r).length ≤ f := by
          simp only [List.length_append, List.length_drop]
          simp only [List.cons_append, List.length_cons, List.length_append] at hlen
          omega
        obtain ⟨out, fuel', pr', hf, heq⟩ :=
          ih (a'.drop (dropSpaces (a' ++ r)).1) r _ hr hlen2
        exact ⟨[' '] ++ out, fuel', pr', hf, by rw [heq, List.append_assoc]⟩
      · have hn : mSpaces pr (c :: (a' ++ r)) = none := by
          show (if isSpaceCh c = true then some (dropSpaces (a' ++ r)).1 else none) = none
          rw [if_neg (by simp [hc])]
        rw [List.cons_append, scanSubGo_cons_none _ _ _ _ _ _ hn]
        have hlen2 : (a' ++ r).length ≤ f := by
          simp only [List.cons_append, List.length_cons] at hlen
          omega
        obtain ⟨out, fuel', pr', hf, heq⟩ := ih a' r (c :: pr) hr hlen2
        exact ⟨c :: out, fuel', pr', hf, by rw [heq]; rfl⟩




theorem cleanTok_parts (t : List Char) (ht : cleanTok t = true) :
    headNS t = true ∧ cleanAux t = true ∧ t ≠ [] := by
  have h := ht
  simp only [cleanTok, Bool.and_eq_true] at h
  refine ⟨h.1.2, h.2, ?_⟩
  intro he
  subst he
  simp [cleanTok] at ht

theorem collapseWs_contains (a t b : List Char) (ht : cleanTok t = true) :
    containsL t (collapseWs (a ++ (t ++ b))) = true := by
  obtain ⟨hhead, haux, hne⟩ := cleanTok_parts t ht
  have hhr : headNS (t ++ b) = true := by
    cases t with
    | nil => exact absurd rfl hne
    | cons c cs => simpa [headNS] using hhead
  unfold collapseWs scanSub
  obtain ⟨out, fuel', pr', hf, heq⟩ :=
    scanSpaces_reach (a ++ (t ++ b)).length a (t ++ b) [] hhr le_rfl
  rw [heq]
  apply containsL_append_right
  rw [scanSpaces_token t b pr' fuel' haux hf]
  exact containsL_append_head _ _

theorem dropWhile_append_headNS (x r : List Char) (hr : headNS r = true) :
    (x ++ r).dropWhile isSpaceCh = x.dropWhile isSpaceCh ++ r := by
  rw [List.dropWhile_append]
  by_cases he : (x.dropWhile isSpaceCh).isEmpty
  · rw [if_pos he]
    have hx : x.dropWhile isSpaceCh = [] := by simpa [List.isEmpty_iff] using he
    rw [hx, List.nil_append]
    cases r with
    | nil => rfl
    | cons c cs =>
      rw [List.dropWhile_cons, show isSpaceCh c = false by simpa [headNS] using hr]
      simp
  · rw [if_neg he]

theorem cleanAux_last (t : List Char) (ha : cleanAux t = true) (c : Char)
    (hc : t.getLast? = some c) : isSpaceCh c = false := by
  induction t with
  | nil => simp at hc
  | cons d r ih =>
    cases r with
    | nil =>
      have : d = c := by simpa using hc
      subst this
      simpa [cleanAux] using ha
    | cons e r' =>
      have ha' : cleanAux (e :: r') = true := cleanAux_tail d (e :: r') ha
      have hc' : (e :: r').getLast? = some c := by
        rw [List.getLast?_cons_cons] at hc
        exact hc
      exact ih ha' hc'

theorem headNS_reverse (t : List Char) (hne : t ≠ []) (haux : cleanAux t = true) :
    headNS t.reverse = true := by
  cases hrv : t.reverse with
  | nil => exact absurd (by simpa using hrv) hne
  | cons d rest =>
    have h1 : t.reverse.head? = some d := by rw [hrv]; rfl
    rw [List.head?_reverse] at h1
    have := cleanAux_last t haux d h1
    simp [headNS, this]

theorem stripL_contains (t u : List Char) (ht : cleanTok t = true)
    (h : containsL t u = true) : containsL t (stripL u) = true := by
  obtain ⟨hhead, haux, hne⟩ := cleanTok_parts t ht
  obtain ⟨x, y, rfl⟩ := containsL_to_split t u h
  have hhr : headNS (t ++ y) = true := by
    cases t with
    | nil => exact absurd rfl hne
    | cons c cs => simpa [headNS] using hhead
  unfold stripL
  rw [dropWhile_append_headNS x (t ++ y) hhr]
  rw [List.reverse_append, List.reverse_append, List.append_assoc]
  have hrevNS : headNS (t.reverse ++ (x.dropWhile isSpaceCh).reverse) = true := by
    have h2 := headNS_reverse t hne haux
    cases hrv : t.reverse with
    | nil => exact absurd (by simpa using hrv) hne
    | cons d rest =>
      rw [hrv] at h2
      simpa [headNS] using h2
  rw [dropWhile_append_headNS y.reverse _ hrevNS]
  rw [List.reverse_append, List.reverse_append, List.reverse_reverse, List.reverse_reverse]
  rw [List.append_assoc]
  apply containsL_append_right
  exact containsL_append_head _ _

theorem joinSpace_split :
    ∀ (pre : List (List Char)) (x : List Char) (post : List (List Char)),
      ∃ a b, joinSpace (pre ++ x :: post) = a ++ (x ++ b) := by
  intro pre
  induction pre with
  | nil =>
    intro x post
    cases post with
    | nil => exact ⟨[], [], by simp [joinSpace]⟩
    | cons z zs => exact ⟨[], ' ' :: joinSpace (z :: zs), rfl⟩
  | cons p pre' ih =>
    intro x post
    obtain ⟨a, b, hab⟩ := ih x post
    refine ⟨p ++ ' ' :: a, b, ?_⟩
    have hne : pre' ++ x :: post ≠ [] := by simp
    obtain ⟨q, qs, hq⟩ : ∃ q qs, pre' ++ x :: post = q :: qs := by
      cases hpp : pre' ++ x :: post with
      | nil => exact absurd hpp hne
      | cons q qs => exact ⟨q, qs, rfl⟩
    show joinSpace ((p :: pre') ++ x :: post) = _
    rw [List.cons_append, hq]
    show p ++ ' ' :: joinSpace (q :: qs) = _
    rw [← hq, hab]
    simp [List.append_assoc]

/-!  Claim C3. -/

set_option maxRecDepth 1000000 in
/-- Counterexample refuting claim C3 as stated: the value-synonym table is
NOT matched with the custom Korean boundary/particle rule — its aliases go
through plain `\b…\b` (IGNORECASE) substitution — so the Korean alias plus
particle `톡식가스를` is left untouched by normalization (the claimed
result `Toxic Gas` never appears), even in the full directive. -/
theorem C3_value_particle_counterexample :
    normalize_value_words "톡식가스를".toList = "톡식가스를".toList ∧
    normalizeStage "톡식가스를 알려줘".toList = "톡식가스를 알려줘".toList ∧
    containsStr "Toxic Gas" (process "톡식가스를 알려줘") = false ∧
    process "톡식가스를 알려줘" = "톡식가스를 데이터프레임으로 보여줘" := by
  refine ⟨by decide, by decide, by decide, by decide⟩

set_option maxRecDepth 1000000 in
set_option maxHeartbeats 4000000 in
/-- Claim C3 amended (proved): only the column-synonym table uses the custom
Korean boundary check with one trailing particle consumed — every Korean
column alias plus any listed particle normalizes to its canonical column
name (`장비를 ↦ 장비명`).  Value-synonym aliases are always matched with
plain `\b` word boundaries case-insensitively, whatever their script: the
bare alias is replaced (`톡식가스 ↦ Toxic Gas`, `TOXIC GAS ↦ Toxic Gas`),
but alias+particle survives normalization unchanged.  Latin column aliases
are likewise matched case-insensitively (`UTILITY ↦ UT`). -/
theorem C3_amended_boundary_rules :
    (∀ ts ∈ COLUMN_SYNONYMS, ∀ syn ∈ ts.2, hasKo syn.toList = true →
      ∀ j ∈ josaStrs, normalize_column_words (syn ++ j).toList = ts.1.toList) ∧
    (∀ ts ∈ VALUE_SYNONYMS, ∀ syn ∈ ts.2, hasKo syn.toList = true →
      normalize_value_words syn.toList = ts.1.toList ∧
      ∀ j ∈ josaStrs, normalizeStage (syn ++ j).toList = (syn ++ j).toList) ∧
    normalize_column_words "장비를".toList = "장비명".toList ∧
    normalize_column_words "UTILITY".toList = "UT".toList ∧
    normalize_value_words "TOXIC GAS".toList = "Toxic Gas".toList := by
  refine ⟨by decide, by decide, by decide, by decide, by decide⟩

/-- Witness for the amended C3 at the column entry `(장비명, 장비)` with the
particle `를` and the value entry `(Toxic Gas, 톡식가스)`. -/
theorem C3_amended_boundary_rules_witness :
    normalize_column_words ("장비" ++ "를").toList = "장비명".toList ∧
    normalize_value_words "톡식가스".toList = "Toxic Gas".toList ∧
    normalizeStage ("톡식가스" ++ "를").toList = ("톡식가스" ++ "를").toList := by
  refine ⟨?_, ?_, ?_⟩
  · exact C3_amended_boundary_rules.1 ("장비명", ["장비"]) (by decide) "장비" (by decide)
      (by decide) "를" (by decide)
  · exact (C3_amended_boundary_rules.2.1 ("Toxic Gas", ["톡식가스", "toxic gas"]) (by decide)
      "톡식가스" (by decide) (by decide)).1
  · exact (C3_amended_boundary_rules.2.1 ("Toxic Gas", ["톡식가스", "toxic gas"]) (by decide)
      "톡식가스" (by decide) (by decide)).2 "를" (by decide)

/-!  Claim C4. -/

set_option maxRecDepth 1000000 in
/-- Counterexample refuting claim C4 as stated: when the canonical column
name `장비명` is itself detected in the remaining text, the output-column
clause lists it twice — the fixed identity prefix is concatenated with the
newly selected columns without deduplication. -/
theorem C4_duplicate_identity_column :
    (processParts "장비명 알려줘".toList).sel = ["장비명"] ∧
    process "장비명 알려줘" =
      "출력컬럼 = [\'장비명\', \'UT\', \'Floor\', \'장비명\'] 데이터프레임으로 보여줘" ∧
    List.count "장비명" (idCols ++ (processParts "장비명 알려줘".toList).sel) = 2 ∧
    ¬ (idCols ++ (processParts "장비명 알려줘".toList).sel).Nodup := by
  refine ⟨by decide, by decide, by decide, by decide⟩

/-- The output-column fold selects a subsequence of the table keys: each
canonical name at most once, in table-definition order. -/
theorem applyCols_go_sublist (cols : List String) :
    ∀ acc : List String × List Char,
      ∃ t, (cols.foldl
          (fun acc col =>
            if containsL col.toList acc.2 then (acc.1 ++ [col], replaceAll col.toList [] acc.2)
            else acc) acc).1 = acc.1 ++ t ∧ t.Sublist cols := by
  induction cols with
  | nil => intro acc; exact ⟨[], by simp, List.nil_sublist _⟩
  | cons c cols ih =>
    intro acc
    rw [List.foldl_cons]
    by_cases hc : containsL c.toList acc.2 = true
    · rw [if_pos hc]
      obtain ⟨t, ht1, ht2⟩ := ih (acc.1 ++ [c], replaceAll c.toList [] acc.2)
      refine ⟨c :: t, ?_, ht2.cons₂ c⟩
      rw [ht1]
      simp
    · rw [if_neg hc]
      obtain ⟨t, ht1, ht2⟩ := ih acc
      exact ⟨t, ht1, ht2.cons c⟩

theorem applyCols_sublist (p : List Char) :
    ∃ t, (applyCols p).1 = t ∧ t.Sublist (COLUMN_SYNONYMS.map Prod.fst) := by
  obtain ⟨t, ht1, ht2⟩ := applyCols_go_sublist (COLUMN_SYNONYMS.map Prod.fst) ([], p)
  refine ⟨t, ?_, ht2⟩
  have h : (applyCols p).1 = ([], p).1 ++ t := ht1
  simpa using h

theorem processParts_sel_sublist (raw : List Char) :
    (processParts raw).sel.Sublist (COLUMN_SYNONYMS.map Prod.fst) := by
  obtain ⟨t, ht1, ht2⟩ := applyCols_sublist ((stageDevs raw).2)
  unfold processParts
  dsimp only
  unfold stageCols
  rw [ht1]
  exact ht2

/-- A clause that occurs among the directive parts survives assembly. -/
theorem assemble_contains (conds sel dims : List String) (p x : List Char)
    (pre post : List (List Char))
    (hparts : directiveParts conds sel dims p = pre ++ x :: post)
    (hx : cleanTok x = true) :
    containsL x (assemble conds sel dims p) = true := by
  obtain ⟨a, b, hab⟩ := joinSpace_split pre x post
  unfold assemble
  rw [hparts, hab]
  exact stripL_contains _ _ hx (collapseWs_contains a x b hx)

theorem directiveParts_sel_split (conds sel dims : List String) (p : List Char)
    (hse : sel.isEmpty = false) :
    directiveParts conds sel dims p =
      (if conds.isEmpty then [] else [(joinAnd conds).toList]) ++
        ("출력컬럼 = " ++ pyListRepr (idCols ++ sel)).toList ::
          ((if dims.isEmpty then []
            else [("차원컬럼 = " ++ pyListRepr dims).toList, "집계방식 = \'sum\'".toList]) ++ [p]) := by
  unfold directiveParts
  rw [hse]
  simp

set_option maxRecDepth 1000000 in
set_option maxHeartbeats 8000000 in
theorem cleanTok_outputClause (sel : List String)
    (hs : sel.Sublist (COLUMN_SYNONYMS.map Prod.fst)) :
    cleanTok ("출력컬럼 = " ++ pyListRepr (idCols ++ sel)).toList = true := by
  have hall : ((COLUMN_SYNONYMS.map Prod.fst).sublists.all
      (fun sel => cleanTok ("출력컬럼 = " ++ pyListRepr (idCols ++ sel)).toList)) = true := by
    decide
  exact List.all_eq_true.mp hall sel (List.mem_sublists.mpr hs)

/-- Claim C4 amended (proved): the selected columns are a subsequence of
the column table's keys — table-definition order, each selected at most
once — and whenever any column is selected the directive carries the
clause `출력컬럼 = [...]` listing the fixed identity prefix concatenated
with the selected columns, without deduplication against the prefix (so a
selected identity column such as `장비명` appears twice, as the
counterexample shows). -/
theorem C4_output_columns_amended :
    (∀ raw : List Char, (processParts raw).sel.Sublist (COLUMN_SYNONYMS.map Prod.fst)) ∧
    (∀ raw : List Char, (processParts raw).sel.isEmpty = false →
      containsL ("출력컬럼 = " ++ pyListRepr (idCols ++ (processParts raw).sel)).toList
        (directiveOf raw) = true) := by
  refine ⟨processParts_sel_sublist, fun raw hne => ?_⟩
  exact assemble_contains _ _ _ _ _ _ _
    (directiveParts_sel_split _ _ _ _ hne)
    (cleanTok_outputClause _ (processParts_sel_sublist raw))

set_option maxRecDepth 1000000 in
/-- Witness for the amended C4 on the input `계획물량 알려줘`, which selects
the canonical planned-length column. -/
theorem C4_output_columns_amended_witness :
    ((processParts "계획물량 알려줘".toList).sel).isEmpty = false ∧
    containsL ("출력컬럼 = " ++
        pyListRepr (idCols ++ (processParts "계획물량 알려줘".toList).sel)).toList
      (directiveOf "계획물량 알려줘".toList) = true :=
  ⟨by decide, C4_output_columns_amended.2 "계획물량 알려줘".toList (by decide)⟩

/-!  Claim C6. -/

theorem ciPref_of_csPref : ∀ (w s : List Char), csPref w s = true → ciPref w s = true := by
  intro w
  induction w with
  | nil => intro s _; rfl
  | cons a as ih =>
    intro s h
    cases s with
    | nil => simp [csPref] at h
    | cons b bs =>
      simp only [csPref, Bool.and_eq_true, decide_eq_true_eq] at h
      unfold ciPref
      rw [Bool.and_eq_true]
      exact ⟨by simp [ciEq, h.1], ih bs h.2⟩

theorem scanFind_at (m : List Char → List Char → Option Nat) :
    ∀ (a pr t : List Char), t ≠ [] → (∀ pr', (m pr' t).isSome = true) →
      scanFind m pr (a ++ t) = true := by
  intro a
  induction a with
  | nil =>
    intro pr t ht h
    cases t with
    | nil => exact absurd rfl ht
    | cons c cs =>
      show ((m pr (c :: cs)).isSome || scanFind m (c :: pr) cs) = true
      rw [h pr]
      rfl
  | cons c a ih =>
    intro pr t ht h
    show ((m pr (c :: (a ++ t))).isSome || scanFind m (c :: pr) (a ++ t)) = true
    rw [ih (c :: pr) t ht h]
    simp

theorem mBeol_hit (w pr b : List Char) :
    (mBeol true w pr (w ++ '별' :: b)).isSome = true := by
  have hci : ciPref w (w ++ '별' :: b) = true :=
    ciPref_of_csPref _ _ (csPref_append_self w _)
  have hdrop : (w ++ '별' :: b).drop w.length = '별' :: b := List.drop_left w _
  have hds : dropSpaces ('별' :: b) = (0, '별' :: b) := by
    unfold dropSpaces
    rw [if_neg (by decide : ¬ isSpaceCh '별' = true)]
  simp only [mBeol, if_true, hci, hdrop, hds]
  rfl

theorem device_trigger_hit (raw : List Char) (h : containsL "장비별".toList raw = true) :
    (dimDeviceWords.find? (fun w => searchBeol true w raw)).isSome = true := by
  have hb : searchBeol true "장비" raw = true := by
    obtain ⟨x, y, hxy⟩ := containsL_to_split "장비별".toList raw h
    have h2 : raw = x ++ ("장비".toList ++ ('별' :: y)) := by
      rw [hxy]; rfl
    unfold searchBeol
    rw [h2]
    exact scanFind_at _ x [] _ (by simp) (fun pr => mBeol_hit "장비".toList pr y)
  rw [List.find?_isSome]
  exact ⟨"장비", by simp [dimDeviceWords], hb⟩

theorem applyDim_fst (ws : List String) (col : String) (raw : List Char)
    (acc : List String × List Char) :
    (applyDim ws col raw acc).1 = acc.1 ∨ (applyDim ws col raw acc).1 = acc.1 ++ [col] := by
  unfold applyDim
  cases h : ws.find? (fun w => searchBeol true w raw) with
  | none => exact Or.inl rfl
  | some w => exact Or.inr rfl

theorem applyDim_fst_hit (ws : List String) (col : String) (raw : List Char)
    (acc : List String × List Char)
    (h : (ws.find? (fun w => searchBeol true w raw)).isSome = true) :
    (applyDim ws col raw acc).1 = acc.1 ++ [col] := by
  unfold applyDim
  cases hf : ws.find? (fun w => searchBeol true w raw) with
  | none => rw [hf] at h; simp at h
  | some w => rfl

theorem stageDims_cases (raw : List Char)
    (h : containsL "장비별".toList raw = true) :
    (stageDims raw).1 ∈
      [["장비명"], ["UT", "장비명"], ["장비명", "Floor"], ["UT", "장비명", "Floor"]] := by
  have h2 := applyDim_fst_hit dimDeviceWords "장비명" raw
    (applyDim dimUTWords "UT" raw ([], normalizeStage (stripL raw))) (device_trigger_hit raw h)
  unfold stageDims
  rcases applyDim_fst dimUTWords "UT" raw ([], normalizeStage (stripL raw)) with h1 | h1 <;>
    rcases applyDim_fst dimFloorWords "Floor" raw
      (applyDim dimDeviceWords "장비명" raw
        (applyDim dimUTWords "UT" raw ([], normalizeStage (stripL raw)))) with h3 | h3 <;>
    rw [h3, h2, h1] <;> simp

theorem joinSpace_cons_ne (p : List Char) (l : List (List Char)) (h : l ≠ []) :
    joinSpace (p :: l) = p ++ ' ' :: joinSpace l := by
  cases l with
  | nil => exact absurd rfl h
  | cons q qs => rfl

theorem joinSpace_merge :
    ∀ (pre : List (List Char)) (x y : List Char) (post : List (List Char)),
      joinSpace (pre ++ x :: y :: post) = joinSpace (pre ++ (x ++ ' ' :: y) :: post) := by
  intro pre
  induction pre with
  | nil =>
    intro x y post
    cases post with
    | nil => rfl
    | cons z zs =>
      show x ++ ' ' :: joinSpace (y :: z :: zs) = (x ++ ' ' :: y) ++ ' ' :: joinSpace (z :: zs)
      simp [joinSpace]
  | cons p pre ih =>
    intro x y post
    rw [List.cons_append, List.cons_append,
        joinSpace_cons_ne p _ (by simp), joinSpace_cons_ne p _ (by simp), ih]

theorem directiveParts_dims_split (conds sel dims : List String) (p : List Char)
    (hde : dims.isEmpty = false) :
    directiveParts conds sel dims p =
      ((if conds.isEmpty then [] else [(joinAnd conds).toList]) ++
       (if sel.isEmpty then [] else [("출력컬럼 = " ++ pyListRepr (idCols ++ sel)).toList])) ++
        ("차원컬럼 = " ++ pyListRepr dims).toList ::
          "집계방식 = \'sum\'".toList :: [p] := by
  unfold directiveParts
  rw [hde]
  simp

theorem assemble_contains_two (conds sel dims : List String) (p x y : List Char)
    (pre post : List (List Char))
    (hparts : directiveParts conds sel dims p = pre ++ x :: y :: post)
    (hxy : cleanTok (x ++ ' ' :: y) = true) :
    containsL (x ++ ' ' :: y) (assemble conds sel dims p) = true := by
  obtain ⟨a, b, hab⟩ := joinSpace_split pre (x ++ ' ' :: y) post
  unfold assemble
  rw [hparts, joinSpace_merge pre x y post, hab]
  exact stripL_contains _ _ hxy (collapseWs_contains a _ b hxy)

theorem dims_clause_contains (raw : List Char) (dims : List String)
    (hd : (stageDims raw).1 = dims) (hne : dims.isEmpty = false)
    (hct : cleanTok (("차원컬럼 = " ++ pyListRepr dims).toList ++
      ' ' :: "집계방식 = \'sum\'".toList) = true) :
    containsL (("차원컬럼 = " ++ pyListRepr dims).toList ++
        ' ' :: "집계방식 = \'sum\'".toList)
      (directiveOf raw) = true := by
  unfold directiveOf processParts
  dsimp only
  rw [hd]
  exact assemble_contains_two _ _ _ _ _ _ _ _ (directiveParts_dims_split _ _ _ _ hne) hct

/-- Claim C6 amended (proved): whenever the original raw text contains the
literal `장비별`, the equipment dimension is recorded exactly once — the
dimension list counts `장비명` once, whatever else it holds — and the final
directive carries the clause `차원컬럼 = [...]` listing the recorded
dimension columns, immediately followed by the clause `집계방식 = 'sum'`.
The literal trigger word is NOT always absent from the final remainder, as
the counterexample shows, and the clause lists every recorded dimension
column, not `['장비명']` alone. -/
theorem C6_equipment_dimension_amended :
    ∀ raw : List Char, containsL "장비별".toList raw = true →
      List.count "장비명" (processParts raw).dims = 1 ∧
      containsL ("차원컬럼 = " ++ pyListRepr (processParts raw).dims ++
          " 집계방식 = \'sum\'").toList (directiveOf raw) = true := by
  intro raw h
  have hcases := stageDims_cases raw h
  have hdims : (processParts raw).dims = (stageDims raw).1 := rfl
  rw [hdims]
  simp only [List.mem_cons, List.not_mem_nil, or_false] at hcases
  rcases hcases with h4 | h4 | h4 | h4
  · rw [h4]
    refine ⟨by decide, ?_⟩
    have hx : ("차원컬럼 = " ++ pyListRepr ["장비명"] ++ " 집계방식 = \'sum\'").toList
        = ("차원컬럼 = " ++ pyListRepr ["장비명"]).toList ++
          ' ' :: "집계방식 = \'sum\'".toList := by decide
    rw [hx]
    exact dims_clause_contains raw ["장비명"] h4 (by decide) (by decide)
  · rw [h4]
    refine ⟨by decide, ?_⟩
    have hx : ("차원컬럼 = " ++ pyListRepr ["UT", "장비명"] ++ " 집계방식 = \'sum\'").toList
        = ("차원컬럼 = " ++ pyListRepr ["UT", "장비명"]).toList ++
          ' ' :: "집계방식 = \'sum\'".toList := by decide
    rw [hx]
    exact dims_clause_contains raw ["UT", "장비명"] h4 (by decide) (by decide)
  · rw [h4]
    refine ⟨by decide, ?_⟩
    have hx : ("차원컬럼 = " ++ pyListRepr ["장비명", "Floor"] ++ " 집계방식 = \'sum\'").toList
        = ("차원컬럼 = " ++ pyListRepr ["장비명", "Floor"]).toList ++
          ' ' :: "집계방식 = \'sum\'".toList := by decide
    rw [hx]
    exact dims_clause_contains raw ["장비명", "Floor"] h4 (by decide) (by decide)
  · rw [h4]
    refine ⟨by decide, ?_⟩
    have hx : ("차원컬럼 = " ++ pyListRepr ["UT", "장비명", "Floor"] ++
          " 집계방식 = \'sum\'").toList
        = ("차원컬럼 = " ++ pyListRepr ["UT", "장비명", "Floor"]).toList ++
          ' ' :: "집계방식 = \'sum\'".toList := by decide
    rw [hx]
    exact dims_clause_contains raw ["UT", "장비명", "Floor"] h4 (by decide) (by decide)

set_option maxRecDepth 1000000 in
/-- Counterexample refuting claim C6 as stated: each dimension loop stops at
its first matching trigger word, so on `장비명별 장비별 알려줘` only the
span `장비명별` is stripped — the second trigger occurrence `장비별` is
left in the working text and reaches the final remainder, where the claim
says the literal word is absent. -/
theorem C6_trigger_word_remains :
    (processParts "장비명별 장비별 알려줘".toList).dims = ["장비명"] ∧
    containsL "장비별".toList "장비명별 장비별 알려줘".toList = true ∧
    containsL "장비별".toList (processParts "장비명별 장비별 알려줘".toList).remainder = true ∧
    process "장비명별 장비별 알려줘" =
      "차원컬럼 = [\'장비명\'] 집계방식 = \'sum\' 장비별 데이터프레임으로 보여줘" := by
  refine ⟨by decide, by decide, by decide, by decide⟩

/-- Witness for the amended C6 on the input `장비별 알려줘`. -/
theorem C6_equipment_dimension_amended_witness :
    List.count "장비명" (processParts "장비별 알려줘".toList).dims = 1 ∧
    containsL ("차원컬럼 = " ++ pyListRepr (processParts "장비별 알려줘".toList).dims ++
        " 집계방식 = \'sum\'").toList (directiveOf "장비별 알려줘".toList) = true :=
  C6_equipment_dimension_amended "장비별 알려줘".toList (by decide)

/-!  Claim C5: one-character-lookaround theory of whole-word removal.
`mWord false w` inspects only the head of the lookbehind context, so a
whole scrubbing pass is characterised by the inductive relation `Scrub`
below, indexed by the previous original character. -/

theorem mWord_eq_mWordAt (w pr s : List Char) :
    mWord false w pr s = mWordAt w pr.head? s := by
  cases pr <;> rfl

theorem scrub_of_scanSubGo (w : List Char) (hw : w ≠ []) :
    ∀ (fuel : Nat) (s pr : List Char), s.length ≤ fuel →
      Scrub w pr.head? s (scanSubGo (mWord false w) [] fuel pr s) := by
  intro fuel
  induction fuel with
  | zero =>
    intro s pr hs
    cases s with
    | nil => exact Scrub.nil _
    | cons c cs => simp at hs
  | succ fuel ih =>
    intro s pr hs
    cases s with
    | nil => exact Scrub.nil _
    | cons c cs =>
      rw [scanSubGo]
      cases hm : mWord false w pr (c :: cs) with
      | none =>
        exact Scrub.keep _ c cs _ (by rw [← mWord_eq_mWordAt, hm])
          (ih cs (c :: pr) (by simp only [List.length_cons] at hs; omega))
      | some n =>
        rw [mWord_eq_mWordAt] at hm
        unfold mWordAt at hm
        by_cases hcond : (okL pr.head? && csPref w (c :: cs)
            && boundaryR ((c :: cs).drop w.length)) = true
        · rw [if_pos hcond] at hm
          simp only [Bool.and_eq_true] at hcond
          obtain ⟨⟨hok, hpre⟩, hbnd⟩ := hcond
          obtain ⟨rest, hrest⟩ := csPref_to_split w (c :: cs) hpre
          have hn : n = w.length - 1 := by
            have := hm
            simp at this
            omega
          have hlen : n + 1 = w.length := by
            cases w with
            | nil => exact absurd rfl hw
            | cons a as => simp at hn ⊢; omega
          have htake : ((c :: cs).take (n + 1)) = w := by
            rw [hlen, hrest, List.take_left]
          have hdropw : (c :: cs).drop w.length = rest := by
            rw [hrest, List.drop_left]
          have hdropn : cs.drop n = rest := by
            have : (c :: cs).drop (n + 1) = rest := by rw [hlen, hdropw]
            simpa using this
          have hrec := ih (cs.drop n) (((c :: cs).take (n+1)).reverse ++ pr)
            (by
              have h1 : (cs.drop n).length ≤ cs.length := by
                rw [List.length_drop]
                omega
              have h2 : cs.length ≤ fuel := by
                simp only [List.length_cons] at hs
                omega
              omega)
          rw [htake, hdropn] at hrec
          have hhead : (w.reverse ++ pr).head? = w.reverse.head? := by
            cases hwv : w.reverse with
            | nil =>
              exact absurd (by simpa using congrArg List.reverse hwv) hw
            | cons a as => rfl
          rw [hhead] at hrec
          rw [hdropw] at hbnd
          dsimp only
          rw [List.nil_append, htake, hdropn, hrest]
          exact Scrub.drop _ rest _ hok hbnd hrec
        · rw [if_neg hcond] at hm
          exact absurd hm (by simp)

theorem scrub_scanSub (w : List Char) (hw : w ≠ []) (s : List Char) :
    Scrub w none s (scanSub (mWord false w) [] [] s) :=
  scrub_of_scanSubGo w hw s.length s [] (Nat.le_refl _)

/-- After a kept word character, the scrubber cannot drop: input and output
heads agree. -/
theorem scrub_word_prev (w : List Char) (d : Char) (s out : List Char)
    (hd : isWordCh d = true) (h : Scrub w (some d) s out) :
    (s = [] ∧ out = []) ∨
      ∃ c cs out', s = c :: cs ∧ out = c :: out' ∧ Scrub w (some c) cs out' := by
  cases h with
  | nil => exact Or.inl ⟨rfl, rfl⟩
  | keep _ c cs out hm hrec => exact Or.inr ⟨c, cs, out, rfl, rfl, hrec⟩
  | drop _ rest out hok hbr hrec =>
    exfalso
    rw [show okL (some d) = !isWordCh d from rfl, hd] at hok
    simp at hok

theorem scrub_boundaryR (w : List Char) (d : Char) (s out : List Char)
    (hd : isWordCh d = true) (h : Scrub w (some d) s out) :
    boundaryR s = boundaryR out := by
  rcases scrub_word_prev w d s out hd h with ⟨rfl, rfl⟩ | ⟨c, cs, out', rfl, rfl, _⟩
  · rfl
  · rfl

/-- Scrubbing commutes with reading a word-character prefix. -/
theorem scrub_csPref (w : List Char) :
    ∀ (v : List Char), v.all isWordCh = true →
    ∀ (d : Char) (s out : List Char), isWordCh d = true → Scrub w (some d) s out →
      csPref v s = csPref v out ∧
      (csPref v s = true → ∃ rest orest d', s = v ++ rest ∧ out = v ++ orest ∧
        isWordCh d' = true ∧ Scrub w (some d') rest orest) := by
  intro v
  induction v with
  | nil =>
    intro _ d s out hd h
    exact ⟨rfl, fun _ => ⟨s, out, d, rfl, rfl, hd, h⟩⟩
  | cons a v ih =>
    intro hall d s out hd h
    rw [List.all_cons, Bool.and_eq_true] at hall
    have haw : isWordCh a = true := hall.1
    have hvall : v.all isWordCh = true := hall.2
    rcases scrub_word_prev w d s out hd h with ⟨rfl, rfl⟩ | ⟨c, cs, out', rfl, rfl, hrec⟩
    · exact ⟨rfl, by intro hcs; simp [csPref] at hcs⟩
    · by_cases hc : c = a
      · subst hc
        have ihv := ih hvall c cs out' haw hrec
        constructor
        · show (decide (c = c) && csPref v cs) = (decide (c = c) && csPref v out')
          rw [ihv.1]
        · intro hcs
          have hcs' : csPref v cs = true := by
            simp only [csPref, Bool.and_eq_true] at hcs
            exact hcs.2
          obtain ⟨rest, orest, d', hrest, horest, hd', hsc⟩ := ihv.2 hcs'
          exact ⟨rest, orest, d', by rw [hrest]; rfl, by rw [horest]; rfl, hd', hsc⟩
      · constructor
        · show (decide (c = a) && csPref v cs) = (decide (c = a) && csPref v out')
          rw [show decide (c = a) = false by simp [hc]]
          simp
        · intro hcs
          simp only [csPref, Bool.and_eq_true, decide_eq_true_eq] at hcs
          exact absurd hcs.1 hc

theorem mWordAt_okL_eq (v : List Char) (h1 h2 : Option Char) (s : List Char)
    (h : okL h1 = okL h2) : mWordAt v h1 s = mWordAt v h2 s := by
  unfold mWordAt
  rw [h]

/-- Scrubbing after a kept character does not change whether a word-only
pattern matches at that character. -/
theorem mWordAt_keep_eq (w v : List Char) (hv : v ≠ []) (hva : v.all isWordCh = true)
    (h : Option Char) (c : Char) (cs out' : List Char) (hs : Scrub w (some c) cs out') :
    mWordAt v h (c :: cs) = mWordAt v h (c :: out') := by
  obtain ⟨v₀, v', rfl⟩ : ∃ a as, v = a :: as := by
    cases v with
    | nil => exact absurd rfl hv
    | cons a as => exact ⟨a, as, rfl⟩
  rw [List.all_cons, Bool.and_eq_true] at hva
  unfold mWordAt
  by_cases hc : c = v₀
  · subst hc
    have hW := scrub_csPref w v' hva.2 c cs out' hva.1 hs
    have hcs : csPref (c :: v') (c :: cs) = csPref (c :: v') (c :: out') := by
      show (decide (c = c) && csPref v' cs) = (decide (c = c) && csPref v' out')
      rw [hW.1]
    rw [← hcs]
    by_cases hp : csPref v' cs = true
    · obtain ⟨rest, orest, d', hrest, horest, hd', hsc⟩ := hW.2 hp
      have hb : boundaryR ((c :: cs).drop (c :: v').length)
          = boundaryR ((c :: out').drop (c :: v').length) := by
        show boundaryR (cs.drop v'.length) = boundaryR (out'.drop v'.length)
        rw [hrest, horest, List.drop_left, List.drop_left]
        exact scrub_boundaryR w d' rest orest hd' hsc
      rw [hb]
    · have hfalse : csPref (c :: v') (c :: cs) = false := by
        show (decide (c = c) && csPref v' cs) = false
        rw [show csPref v' cs = false from eq_false_of_ne_true hp]
        simp
      rw [hfalse]
      simp
  · have h1 : csPref (v₀ :: v') (c :: cs) = false := by
      show (decide (c = v₀) && csPref v' cs) = false
      rw [show decide (c = v₀) = false by simp [hc]]
      simp
    have h2 : csPref (v₀ :: v') (c :: out') = false := by
      show (decide (c = v₀) && csPref v' out') = false
      rw [show decide (c = v₀) = false by simp [hc]]
      simp
    rw [h1, h2]
    simp

/-- A non-word character cannot start a word-only pattern. -/
theorem csPref_nonword_head (v : List Char) (hv : v ≠ []) (hva : v.all isWordCh = true)
    (c : Char) (hc : isWordCh c = false) (x : List Char) :
    csPref v (c :: x) = false := by
  obtain ⟨v₀, v', rfl⟩ : ∃ a as, v = a :: as := by
    cases v with
    | nil => exact absurd rfl hv
    | cons a as => exact ⟨a, as, rfl⟩
  rw [List.all_cons, Bool.and_eq_true] at hva
  show (decide (c = v₀) && csPref v' x) = false
  have : decide (c = v₀) = false := by
    by_cases h : c = v₀
    · rw [h] at hc; rw [hva.1] at hc; simp at hc
    · simp [h]
  rw [this]
  simp

theorem mWordAt_nonword_head (v : List Char) (hv : v ≠ []) (hva : v.all isWordCh = true)
    (h : Option Char) (c : Char) (hc : isWordCh c = false) (x : List Char) :
    mWordAt v h (c :: x) = none := by
  unfold mWordAt
  rw [csPref_nonword_head v hv hva c hc x]
  simp

/-- `scanFind` for a whole-word matcher sees only the head of its context. -/
theorem scanFind_head_eq (v : List Char) :
    ∀ (s pr₁ pr₂ : List Char), pr₁.head? = pr₂.head? →
      scanFind (mWord false v) pr₁ s = scanFind (mWord false v) pr₂ s := by
  intro s
  induction s with
  | nil => intro pr₁ pr₂ _; rfl
  | cons c cs ih =>
    intro pr₁ pr₂ hp
    show ((mWord false v pr₁ (c :: cs)).isSome || scanFind (mWord false v) (c :: pr₁) cs)
        = ((mWord false v pr₂ (c :: cs)).isSome || scanFind (mWord false v) (c :: pr₂) cs)
    rw [mWord_eq_mWordAt, mWord_eq_mWordAt, hp, ih (c :: pr₁) (c :: pr₂) rfl]

/-- A find with a stricter context is also a find with a laxer context. -/
theorem scanFind_mono (v : List Char) :
    ∀ (s pr₁ pr₂ : List Char), (okL pr₂.head? = true → okL pr₁.head? = true) →
      scanFind (mWord false v) pr₂ s = true → scanFind (mWord false v) pr₁ s = true := by
  intro s
  induction s with
  | nil => intro pr₁ pr₂ _ h; exact h
  | cons c cs ih =>
    intro pr₁ pr₂ hok h
    rw [show scanFind (mWord false v) pr₂ (c :: cs)
        = ((mWord false v pr₂ (c :: cs)).isSome || scanFind (mWord false v) (c :: pr₂) cs)
      from rfl, Bool.or_eq_true] at h
    show ((mWord false v pr₁ (c :: cs)).isSome || scanFind (mWord false v) (c :: pr₁) cs) = true
    rw [Bool.or_eq_true]
    rcases h with h | h
    · left
      rw [mWord_eq_mWordAt] at h ⊢
      unfold mWordAt at h ⊢
      by_cases hcond : (okL pr₂.head? && csPref v (c :: cs)
          && boundaryR ((c :: cs).drop v.length)) = true
      · simp only [Bool.and_eq_true] at hcond
        rw [if_pos (by rw [hok hcond.1.1, hcond.1.2, hcond.2]; rfl)]
        rfl
      · rw [if_neg hcond] at h
        simp at h
    · right
      exact ih (c :: pr₁) (c :: pr₂) (fun hx => hx) h

/-- A find in a suffix is a find in the whole text. -/
theorem scanFind_suffix (m : List Char → List Char → Option Nat) :
    ∀ (u pr t : List Char), scanFind m (u.reverse ++ pr) t = true →
      scanFind m pr (u ++ t) = true := by
  intro u
  induction u with
  | nil => intro pr t h; exact h
  | cons a u ih =>
    intro pr t h
    show ((m pr (a :: (u ++ t))).isSome || scanFind m (a :: pr) (u ++ t)) = true
    rw [Bool.or_eq_true]
    right
    apply ih (a :: pr) t
    have : u.reverse ++ (a :: pr) = (a :: u).reverse ++ pr := by
      rw [List.reverse_cons, List.append_assoc]
      rfl
    rw [this]
    exact h

/-- Two texts, one a prefix extended, compare: either the pattern fits inside
the prefix or the prefix fits inside the pattern. -/
theorem csPref_total :
    ∀ (u v rest : List Char), csPref v (u ++ rest) = true →
      (∃ v₂, u = v ++ v₂) ∨ (∃ t, v = u ++ t ∧ csPref t rest = true) := by
  intro u
  induction u with
  | nil => intro v rest h; exact Or.inr ⟨v, rfl, h⟩
  | cons b bs ih =>
    intro v rest h
    cases v with
    | nil => exact Or.inl ⟨b :: bs, rfl⟩
    | cons a as =>
      rw [show csPref (a :: as) ((b :: bs) ++ rest)
          = (decide (b = a) && csPref as (bs ++ rest)) from rfl,
        Bool.and_eq_true] at h
      obtain ⟨hba, h2⟩ := h
      obtain rfl : b = a := of_decide_eq_true hba
      rcases ih as rest h2 with ⟨v₂, hv₂⟩ | ⟨t, ht, hpt⟩
      · exact Or.inl ⟨v₂, by rw [hv₂]; rfl⟩
      · exact Or.inr ⟨t, by rw [ht]; rfl, hpt⟩

theorem csPref_append_cancel (x : List Char) :
    ∀ (y z : List Char), csPref (x ++ y) (x ++ z) = csPref y z := by
  induction x with
  | nil => intro y z; rfl
  | cons a as ih =>
    intro y z
    show (decide (a = a) && csPref (as ++ y) (as ++ z)) = csPref y z
    rw [ih y z]
    simp

/-- A different whole word cannot match at the start of a dropped span. -/
theorem mWordAt_span_start (w v : List Char)
    (hva : v.all isWordCh = true) (hwa : w.all isWordCh = true) (hne : v ≠ w)
    (h : Option Char) (rest : List Char) (hbr : boundaryR rest = true) :
    mWordAt v h (w ++ rest) = none := by
  unfold mWordAt
  by_cases hp : csPref v (w ++ rest) = true
  · rcases csPref_total w v rest hp with ⟨v₂, hv₂⟩ | ⟨t, ht, hpt⟩
    · cases v₂ with
      | nil =>
        exfalso
        rw [List.append_nil] at hv₂
        exact hne hv₂.symm
      | cons d t₂ =>
        have hdrop : (w ++ rest).drop v.length = (d :: t₂) ++ rest := by
          rw [hv₂, List.append_assoc, List.drop_left]
        have hdw : isWordCh d = true := by
          have hdmem : d ∈ w := by
            rw [hv₂]
            exact List.mem_append_right v (List.mem_cons_self d t₂)
          exact List.all_eq_true.mp hwa d hdmem
        rw [hdrop]
        rw [show boundaryR ((d :: t₂) ++ rest) = !isWordCh d from rfl, hdw]
        simp
    · cases t with
      | nil =>
        exfalso
        rw [List.append_nil] at ht
        exact hne ht
      | cons d t' =>
        exfalso
        cases rest with
        | nil => simp [csPref] at hpt
        | cons r rs =>
          have hrd : r = d := by
            rw [show csPref (d :: t') (r :: rs) = (decide (r = d) && csPref t' rs) from rfl,
              Bool.and_eq_true] at hpt
            exact of_decide_eq_true hpt.1
          have hdw : isWordCh d = true := by
            have hdmem : d ∈ v := by
              rw [ht]
              exact List.mem_append_right w (List.mem_cons_self d t')
            exact List.all_eq_true.mp hva d hdmem
          rw [show boundaryR (r :: rs) = !isWordCh r from rfl, hrd, hdw] at hbr
          simp at hbr
  · rw [show csPref v (w ++ rest) = false from eq_false_of_ne_true hp]
    simp

/-- Peeling a word-character span off the front of a successful find. -/
theorem scanFind_peel (v : List Char) :
    ∀ (u : List Char), u.all isWordCh = true →
    ∀ (pr t : List Char), scanFind (mWord false v) pr (u ++ t) = true →
      mWordAt v pr.head? (u ++ t) = none →
      scanFind (mWord false v) (u.reverse ++ pr) t = true := by
  intro u
  induction u with
  | nil =>
    intro _ pr t h _
    exact h
  | cons a u ih =>
    intro hall pr t h hm
    rw [List.all_cons, Bool.and_eq_true] at hall
    rw [show scanFind (mWord false v) pr ((a :: u) ++ t)
        = ((mWord false v pr (a :: (u ++ t))).isSome
            || scanFind (mWord false v) (a :: pr) (u ++ t)) from rfl,
      Bool.or_eq_true] at h
    rcases h with h | h
    · rw [mWord_eq_mWordAt] at h
      have hm2 : mWordAt v pr.head? (a :: (u ++ t)) = none := hm
      rw [hm2] at h
      simp at h
    · have hm' : mWordAt v (a :: pr).head? (u ++ t) = none := by
        unfold mWordAt
        rw [show okL (a :: pr).head? = !isWordCh a from rfl, hall.1]
        simp
      have := ih hall.2 (a :: pr) t h hm'
      rw [show u.reverse ++ (a :: pr) = (a :: u).reverse ++ pr by
        rw [List.reverse_cons, List.append_assoc]; rfl] at this
      exact this

/-- Removal is complete: the scrubbed text has no whole-word occurrence of
the removed word. -/
theorem scrub_removes (w : List Char) (hw : w ≠ []) (hwa : w.all isWordCh = true) :
    ∀ (h : Option Char) (s out : List Char), Scrub w h s out →
    ∀ (qr : List Char), (okL qr.head? = true → (okL h = true ∨ boundaryR s = true)) →
      scanFind (mWord false w) qr out = false := by
  intro h s out hscrub
  induction hscrub with
  | nil => intro qr _; rfl
  | keep h c cs out hm hrec ih =>
    intro qr hq
    rw [show scanFind (mWord false w) qr (c :: out)
        = ((mWord false w qr (c :: out)).isSome
            || scanFind (mWord false w) (c :: qr) out) from rfl]
    have htail : scanFind (mWord false w) (c :: qr) out = false :=
      ih (c :: qr) (fun hx => Or.inl hx)
    have hhead : (mWord false w qr (c :: out)).isSome = false := by
      rw [mWord_eq_mWordAt]
      by_cases hql : okL qr.head? = true
      · rcases hq hql with hokh | hbs
        · have heq := mWordAt_keep_eq w w hw hwa h c cs out hrec
          rw [mWordAt_okL_eq w qr.head? h (c :: out) (by rw [hql, hokh]), ← heq, hm]
          rfl
        · have hcw : isWordCh c = false := by
            rw [show boundaryR (c :: cs) = !isWordCh c from rfl] at hbs
            simpa using hbs
          rw [mWordAt_nonword_head w hw hwa qr.head? c hcw out]
          rfl
      · unfold mWordAt
        rw [show okL qr.head? = false from eq_false_of_ne_true hql]
        simp
    rw [hhead, htail]
    rfl
  | drop h rest out hok hbr hrec ih =>
    intro qr _
    exact ih qr (fun _ => Or.inr hbr)

/-- Scrubbing one word preserves whole-word occurrences of any other word. -/
theorem scrub_preserves (w v : List Char) (hw : w ≠ []) (hv : v ≠ [])
    (hwa : w.all isWordCh = true) (hva : v.all isWordCh = true) (hne : v ≠ w) :
    ∀ (h : Option Char) (s out : List Char), Scrub w h s out →
    ∀ (pr qr : List Char), pr.head? = h → qr.head? = h →
      scanFind (mWord false v) pr s = true → scanFind (mWord false v) qr out = true := by
  intro h s out hscrub
  induction hscrub with
  | nil =>
    intro pr qr _ _ hfind
    simp [scanFind] at hfind
  | keep h c cs out hm hrec ih =>
    intro pr qr hpr hqr hfind
    rw [show scanFind (mWord false v) pr (c :: cs)
        = ((mWord false v pr (c :: cs)).isSome
            || scanFind (mWord false v) (c :: pr) cs) from rfl,
      Bool.or_eq_true] at hfind
    rw [show scanFind (mWord false v) qr (c :: out)
        = ((mWord false v qr (c :: out)).isSome
            || scanFind (mWord false v) (c :: qr) out) from rfl,
      Bool.or_eq_true]
    rcases hfind with hfind | hfind
    · left
      rw [mWord_eq_mWordAt] at hfind ⊢
      rw [hqr, ← mWordAt_keep_eq w v hv hva h c cs out hrec, ← hpr]
      exact hfind
    · right
      exact ih (c :: pr) (c :: qr) rfl rfl hfind
  | drop h rest out hok hbr hrec ih =>
    intro pr qr hpr hqr hfind
    have hm0 : mWordAt v pr.head? (w ++ rest) = none :=
      mWordAt_span_start w v hva hwa hne pr.head? rest hbr
    have hpeel := scanFind_peel v w hwa pr rest hfind hm0
    have hfr : scanFind (mWord false v) (w.reverse ++ qr) out = true := by
      apply ih (w.reverse ++ pr) (w.reverse ++ qr) ?_ ?_ hpeel
      · cases hwv : w.reverse with
        | nil => exact absurd (by simpa using congrArg List.reverse hwv) hw
        | cons x xs => rfl
      · cases hwv : w.reverse with
        | nil => exact absurd (by simpa using congrArg List.reverse hwv) hw
        | cons x xs => rfl
    apply scanFind_mono v out qr (w.reverse ++ qr) ?_ hfr
    intro hcontra
    exfalso
    obtain ⟨x, xs, hwv⟩ : ∃ x xs, w.reverse = x :: xs := by
      cases hwv : w.reverse with
      | nil => exact absurd (by simpa using congrArg List.reverse hwv) hw
      | cons x xs => exact ⟨x, xs, rfl⟩
    have hxw : isWordCh x = true := by
      have : x ∈ w := by
        rw [← List.mem_reverse, hwv]
        exact List.mem_cons_self x xs
      exact List.all_eq_true.mp hwa x this
    rw [hwv] at hcontra
    rw [show okL ((x :: xs) ++ qr).head? = !isWordCh x from rfl, hxw] at hcontra
    simp at hcontra

/-- Scrubbing one word creates no new whole-word occurrence of another. -/
theorem scrub_creates_none (w v : List Char) (hw : w ≠ []) (hv : v ≠ [])
    (hwa : w.all isWordCh = true) (hva : v.all isWordCh = true) :
    ∀ (h : Option Char) (s out : List Char), Scrub w h s out →
    ∀ (pr qr : List Char), pr.head? = h → qr.head? = h →
      scanFind (mWord false v) qr out = true → scanFind (mWord false v) pr s = true := by
  intro h s out hscrub
  induction hscrub with
  | nil =>
    intro pr qr _ _ hfind
    simp [scanFind] at hfind
  | keep h c cs out hm hrec ih =>
    intro pr qr hpr hqr hfind
    rw [show scanFind (mWord false v) qr (c :: out)
        = ((mWord false v qr (c :: out)).isSome
            || scanFind (mWord false v) (c :: qr) out) from rfl,
      Bool.or_eq_true] at hfind
    rw [show scanFind (mWord false v) pr (c :: cs)
        = ((mWord false v pr (c :: cs)).isSome
            || scanFind (mWord false v) (c :: pr) cs) from rfl,
      Bool.or_eq_true]
    rcases hfind with hfind | hfind
    · left
      rw [mWord_eq_mWordAt] at hfind ⊢
      rw [hpr, mWordAt_keep_eq w v hv hva h c cs out hrec, ← hqr]
      exact hfind
    · right
      exact ih (c :: pr) (c :: qr) rfl rfl hfind
  | drop h rest out hok hbr hrec ih =>
    intro pr qr hpr hqr hfind
    obtain ⟨x, xs, hwv⟩ : ∃ x xs, w.reverse = x :: xs := by
      cases hwv : w.reverse with
      | nil => exact absurd (by simpa using congrArg List.reverse hwv) hw
      | cons x xs => exact ⟨x, xs, rfl⟩
    have hxw : isWordCh x = true := by
      have : x ∈ w := by
        rw [← List.mem_reverse, hwv]
        exact List.mem_cons_self x xs
      exact List.all_eq_true.mp hwa x this
    have hout : scanFind (mWord false v) (w.reverse ++ qr) out = true := by
      cases hrest_out : out with
      | nil =>
        rw [hrest_out] at hfind
        simp [scanFind] at hfind
      | cons o os =>
        have hohead : isWordCh o = false := by
          have hxrec : Scrub w (some x) rest out := by
            rw [show w.reverse.head? = some x by rw [hwv]; rfl] at hrec
            exact hrec
          rcases scrub_word_prev w x rest out hxw hxrec
            with ⟨hr0, ho0⟩ | ⟨c', cs', out'', hr1, ho1, _⟩
          · rw [ho0] at hrest_out
            simp at hrest_out
          · have hco : c' :: out'' = o :: os := by rw [← ho1, hrest_out]
            injection hco with h1 h2
            rw [hr1] at hbr
            rw [show boundaryR (c' :: cs') = !isWordCh c' from rfl, h1] at hbr
            simpa using hbr
        rw [hrest_out] at hfind
        rw [show scanFind (mWord false v) qr (o :: os)
            = ((mWord false v qr (o :: os)).isSome
                || scanFind (mWord false v) (o :: qr) os) from rfl,
          Bool.or_eq_true] at hfind
        rcases hfind with hfind | hfind
        · exfalso
          rw [mWord_eq_mWordAt,
            mWordAt_nonword_head v hv hva qr.head? o hohead os] at hfind
          simp at hfind
        · rw [show scanFind (mWord false v) (w.reverse ++ qr) (o :: os)
              = ((mWord false v (w.reverse ++ qr) (o :: os)).isSome
                  || scanFind (mWord false v) (o :: (w.reverse ++ qr)) os) from rfl,
            Bool.or_eq_true]
          right
          rw [scanFind_head_eq v os (o :: (w.reverse ++ qr)) (o :: qr) rfl]
          exact hfind
    have hrest_find : scanFind (mWord false v) (w.reverse ++ pr) rest = true := by
      apply ih (w.reverse ++ pr) (w.reverse ++ qr) ?_ ?_ hout
      · rw [hwv]; rfl
      · rw [hwv]; rfl
    have := scanFind_suffix (mWord false v) w pr rest hrest_find
    exact this

/-- One whole-word removal pass leaves no whole-word occurrence behind. -/
theorem removal_complete (w : List Char) (hw : w ≠ []) (hwa : w.all isWordCh = true)
    (p : List Char) :
    scanFind (mWord false w) [] (scanSub (mWord false w) [] [] p) = false :=
  scrub_removes w hw hwa none p _ (scrub_scanSub w hw p) [] (fun _ => Or.inl rfl)

/-- One whole-word removal pass preserves whole-word occurrences of any
other word. -/
theorem removal_preserves (w v : List Char) (hw : w ≠ []) (hv : v ≠ [])
    (hwa : w.all isWordCh = true) (hva : v.all isWordCh = true) (hne : v ≠ w)
    (p : List Char) (h : scanFind (mWord false v) [] p = true) :
    scanFind (mWord false v) [] (scanSub (mWord false w) [] [] p) = true :=
  scrub_preserves w v hw hv hwa hva hne none p _ (scrub_scanSub w hw p) [] [] rfl rfl h

/-- One whole-word removal pass creates no whole-word occurrence of any
word. -/
theorem removal_creates_none (w v : List Char) (hw : w ≠ []) (hv : v ≠ [])
    (hwa : w.all isWordCh = true) (hva : v.all isWordCh = true)
    (p : List Char) (h : scanFind (mWord false v) [] p = false) :
    scanFind (mWord false v) [] (scanSub (mWord false w) [] [] p) = false := by
  by_contra hcon
  rw [Bool.not_eq_false] at hcon
  rw [scrub_creates_none w v hw hv hwa hva none p _ (scrub_scanSub w hw p) [] [] rfl rfl hcon]
    at h
  simp at h

theorem floorStep_pos (acc : List String × List Char) (fl : String)
    (h : scanFind (mWord false fl.toList) [] acc.2 = true) :
    floorStep acc fl
      = (acc.1 ++ [mkFloorCond fl], scanSub (mWord false fl.toList) [] [] acc.2) := by
  unfold floorStep
  rw [if_pos h]

theorem floorStep_neg (acc : List String × List Char) (fl : String)
    (h : ¬ scanFind (mWord false fl.toList) [] acc.2 = true) :
    floorStep acc fl = acc := by
  unfold floorStep
  rw [if_neg h]

/-- Labels not yet reached leave the count and a pending find untouched. -/
theorem floorFold_pre (fl : String) (hfl0 : fl.toList ≠ [])
    (hflw : fl.toList.all isWordCh = true) :
    ∀ (pre : List String) (acc : List String × List Char),
      (∀ l ∈ pre, l.toList ≠ [] ∧ l.toList.all isWordCh = true ∧ fl.toList ≠ l.toList ∧
        mkFloorCond l ≠ mkFloorCond fl) →
      scanFind (mWord false fl.toList) [] acc.2 = true →
      scanFind (mWord false fl.toList) [] (pre.foldl floorStep acc).2 = true ∧
      List.count (mkFloorCond fl) (pre.foldl floorStep acc).1
        = List.count (mkFloorCond fl) acc.1 := by
  intro pre
  induction pre with
  | nil => intro acc _ hfind; exact ⟨hfind, rfl⟩
  | cons l ls ih =>
    intro acc hside hfind
    obtain ⟨hl0, hlw, hlne, hlcne⟩ := hside l (List.mem_cons_self l ls)
    rw [List.foldl_cons]
    by_cases hstep : scanFind (mWord false l.toList) [] acc.2 = true
    · have hstep_eq : floorStep acc l
          = (acc.1 ++ [mkFloorCond l], scanSub (mWord false l.toList) [] [] acc.2) := by
        unfold floorStep
        rw [if_pos hstep]
      rw [hstep_eq]
      have hpres := removal_preserves l.toList fl.toList hl0 hfl0 hlw hflw hlne acc.2 hfind
      have := ih (acc.1 ++ [mkFloorCond l], scanSub (mWord false l.toList) [] [] acc.2)
        (fun l' hl' => hside l' (List.mem_cons_of_mem l hl')) hpres
      refine ⟨this.1, ?_⟩
      rw [this.2, List.count_append]
      rw [show List.count (mkFloorCond fl) [mkFloorCond l] = 0 by
        rw [List.count_singleton]
        simp [hlcne]]
      omega
    · have hstep_eq : floorStep acc l = acc := by
        unfold floorStep
        rw [if_neg hstep]
      rw [hstep_eq]
      exact ih acc (fun l' hl' => hside l' (List.mem_cons_of_mem l hl')) hfind

/-- Labels after the hit leave the count and an established absence
untouched. -/
theorem floorFold_post (fl : String) (hfl0 : fl.toList ≠ [])
    (hflw : fl.toList.all isWordCh = true) :
    ∀ (post : List String) (acc : List String × List Char),
      (∀ l ∈ post, l.toList ≠ [] ∧ l.toList.all isWordCh = true ∧
        mkFloorCond l ≠ mkFloorCond fl) →
      scanFind (mWord false fl.toList) [] acc.2 = false →
      scanFind (mWord false fl.toList) [] (post.foldl floorStep acc).2 = false ∧
      List.count (mkFloorCond fl) (post.foldl floorStep acc).1
        = List.count (mkFloorCond fl) acc.1 := by
  intro post
  induction post with
  | nil => intro acc _ habs; exact ⟨habs, rfl⟩
  | cons l ls ih =>
    intro acc hside habs
    obtain ⟨hl0, hlw, hlcne⟩ := hside l (List.mem_cons_self l ls)
    rw [List.foldl_cons]
    by_cases hstep : scanFind (mWord false l.toList) [] acc.2 = true
    · have hstep_eq : floorStep acc l
          = (acc.1 ++ [mkFloorCond l], scanSub (mWord false l.toList) [] [] acc.2) := by
        unfold floorStep
        rw [if_pos hstep]
      rw [hstep_eq]
      have habs' := removal_creates_none l.toList fl.toList hl0 hfl0 hlw hflw acc.2 habs
      have := ih (acc.1 ++ [mkFloorCond l], scanSub (mWord false l.toList) [] [] acc.2)
        (fun l' hl' => hside l' (List.mem_cons_of_mem l hl')) habs'
      refine ⟨this.1, ?_⟩
      rw [this.2, List.count_append]
      rw [show List.count (mkFloorCond fl) [mkFloorCond l] = 0 by
        rw [List.count_singleton]
        simp [hlcne]]
      omega
    · have hstep_eq : floorStep acc l = acc := by
        unfold floorStep
        rw [if_neg hstep]
      rw [hstep_eq]
      exact ih acc (fun l' hl' => hside l' (List.mem_cons_of_mem l hl')) habs

/-- The floor-condition pass: for a label present as a whole word when the
pass starts, exactly one condition is recorded and no whole-word occurrence
of the label survives the pass. -/
theorem applyFloors_spec (p : List Char) (fl : String) (hfl : fl ∈ floorLabels)
    (h : scanFind (mWord false fl.toList) [] p = true) :
    List.count (mkFloorCond fl) (applyFloors p).1 = 1 ∧
    scanFind (mWord false fl.toList) [] (applyFloors p).2 = false := by
  have hsplit : ∃ pre post, floorLabels = pre ++ fl :: post ∧
      (∀ l ∈ pre, l.toList ≠ [] ∧ l.toList.all isWordCh = true ∧ fl.toList ≠ l.toList ∧
        mkFloorCond l ≠ mkFloorCond fl) ∧
      (∀ l ∈ post, l.toList ≠ [] ∧ l.toList.all isWordCh = true ∧
        mkFloorCond l ≠ mkFloorCond fl) ∧
      fl.toList ≠ [] ∧ fl.toList.all isWordCh = true := by
    fin_cases hfl
    · exact ⟨[], ["2F", "3F"], by decide, by decide, by decide, by decide, by decide⟩
    · exact ⟨["1F"], ["3F"], by decide, by decide, by decide, by decide, by decide⟩
    · exact ⟨["1F", "2F"], [], by decide, by decide, by decide, by decide, by decide⟩
  obtain ⟨pre, post, hlab, hpre, hpost, hfl0, hflw⟩ := hsplit
  unfold applyFloors
  rw [hlab, List.foldl_append, List.foldl_cons]
  have h1 := floorFold_pre fl hfl0 hflw pre ([], p) hpre h
  rw [floorStep_pos (pre.foldl floorStep ([], p)) fl h1.1]
  have habs := removal_complete fl.toList hfl0 hflw (pre.foldl floorStep ([], p)).2
  have h2 := floorFold_post fl hfl0 hflw post
    ((pre.foldl floorStep ([], p)).1 ++ [mkFloorCond fl],
     scanSub (mWord false fl.toList) [] [] (pre.foldl floorStep ([], p)).2) hpost habs
  refine ⟨?_, h2.1⟩
  rw [h2.2, List.count_append, h1.2]
  rw [show List.count (mkFloorCond fl) ([] : List String) = 0 from rfl]
  rw [List.count_singleton]
  simp

theorem applyUT_shape (p : List Char) :
    ∀ c ∈ (applyUT p).1, ∃ v, c = mkUTCond v := by
  have hgen : ∀ (vs : List String) (acc : List String × List Char),
      (∀ c ∈ acc.1, ∃ v, c = mkUTCond v) →
      ∀ c ∈ (vs.foldl
        (fun acc v =>
          if scanFind (mWord false (valPatternWord v)) [] acc.2 then
            (acc.1 ++ [mkUTCond v], scanSub (mWord false (valPatternWord v)) [] [] acc.2)
          else acc) acc).1, ∃ v, c = mkUTCond v := by
    intro vs
    induction vs with
    | nil => intro acc hacc; exact hacc
    | cons v vs ih =>
      intro acc hacc
      rw [List.foldl_cons]
      by_cases hv : scanFind (mWord false (valPatternWord v)) [] acc.2 = true
      · rw [if_pos hv]
        refine ih _ ?_
        intro c hc
        rcases List.mem_append.mp hc with hc | hc
        · exact hacc c hc
        · rw [List.mem_singleton] at hc
          exact ⟨v, hc⟩
      · rw [if_neg hv]
        exact ih acc hacc
  exact hgen utVals ([], p) (by intro c hc; simp at hc)

theorem applyDevs_shape (p : List Char) :
    ∀ c ∈ (applyDevs p).1, ∃ d, c = mkDevCond d := by
  have hgen : ∀ (ds : List (List Char)) (acc : List String × List Char),
      (∀ c ∈ acc.1, ∃ d, c = mkDevCond d) →
      ∀ c ∈ (ds.foldl
        (fun acc dev => (acc.1 ++ [mkDevCond (String.mk dev)], replaceAll dev [] acc.2))
        acc).1, ∃ d, c = mkDevCond d := by
    intro ds
    induction ds with
    | nil => intro acc hacc; exact hacc
    | cons dev ds ih =>
      intro acc hacc
      rw [List.foldl_cons]
      refine ih _ ?_
      intro c hc
      rcases List.mem_append.mp hc with hc | hc
      · exact hacc c hc
      · rw [List.mem_singleton] at hc
        exact ⟨String.mk dev, hc⟩
  exact hgen (deviceMatches p) ([], p) (by intro c hc; simp at hc)

theorem mkUTCond_ne_mkFloorCond (v fl : String) : mkUTCond v ≠ mkFloorCond fl := by
  intro h
  have hd := congrArg String.data h
  rw [show mkUTCond v = "(UT == \"" ++ v ++ "\")" from rfl,
    show mkFloorCond fl = "(Floor == \"" ++ fl ++ "\")" from rfl,
    String.data_append, String.data_append, String.data_append, String.data_append] at hd
  have h1 : ("(UT == \"".data) = '(' :: 'U' :: "T == \"".data := rfl
  have h2 : ("(Floor == \"".data) = '(' :: 'F' :: "loor == \"".data := rfl
  rw [h1, h2] at hd
  simp at hd

theorem mkDevCond_ne_mkFloorCond (d fl : String) : mkDevCond d ≠ mkFloorCond fl := by
  intro h
  have hd := congrArg String.data h
  rw [show mkDevCond d = "(장비명 == \"" ++ d ++ "\")" from rfl,
    show mkFloorCond fl = "(Floor == \"" ++ fl ++ "\")" from rfl,
    String.data_append, String.data_append, String.data_append, String.data_append] at hd
  have h1 : ("(장비명 == \"".data) = '(' :: '장' :: "비명 == \"".data := rfl
  have h2 : ("(Floor == \"".data) = '(' :: 'F' :: "loor == \"".data := rfl
  rw [h1, h2] at hd
  simp at hd

/-- The floor-condition count in the full condition list. -/
theorem processParts_floor_count (raw : List Char) (fl : String) (hfl : fl ∈ floorLabels)
    (h : scanFind (mWord false fl.toList) [] (stageDims raw).2 = true) :
    List.count (mkFloorCond fl) (processParts raw).conds = 1 ∧
    scanFind (mWord false fl.toList) [] (stageFloors raw).2 = false := by
  have hspec := applyFloors_spec (stageDims raw).2 fl hfl h
  have hut : List.count (mkFloorCond fl) (stageUT raw).1 = 0 := by
    rw [List.count_eq_zero]
    intro hmem
    obtain ⟨v, hv⟩ := applyUT_shape (stageFloors raw).2 (mkFloorCond fl) hmem
    exact mkUTCond_ne_mkFloorCond v fl hv.symm
  have hdev : List.count (mkFloorCond fl) (stageDevs raw).1 = 0 := by
    rw [List.count_eq_zero]
    intro hmem
    obtain ⟨d, hd⟩ := applyDevs_shape (stageUT raw).2 (mkFloorCond fl) hmem
    exact mkDevCond_ne_mkFloorCond d fl hd.symm
  constructor
  · show List.count (mkFloorCond fl)
      ((stageFloors raw).1 ++ (stageUT raw).1 ++ (stageDevs raw).1) = 1
    rw [List.count_append, List.count_append, hut, hdev]
    have hfc : List.count (mkFloorCond fl) (stageFloors raw).1 = 1 := hspec.1
    omega
  · exact hspec.2

theorem joinAnd_mem_split :
    ∀ (conds : List String) (c : String), c ∈ conds →
      ∃ x y, (joinAnd conds).toList = x ++ (c.toList ++ y) := by
  intro conds
  induction conds with
  | nil => intro c hc; simp at hc
  | cons c₀ cs ih =>
    intro c hc
    cases cs with
    | nil =>
      rw [List.mem_singleton] at hc
      exact ⟨[], [], by rw [hc]; simp [joinAnd]⟩
    | cons c₁ cs' =>
      rcases List.mem_cons.mp hc with rfl | hc'
      · refine ⟨[], (" AND " ++ joinAnd (c₁ :: cs')).toList, ?_⟩
        show (c ++ " AND " ++ joinAnd (c₁ :: cs')).data
            = [] ++ (c.data ++ (" AND " ++ joinAnd (c₁ :: cs')).data)
        rw [String.data_append, String.data_append, String.data_append]
        simp
      · obtain ⟨x, y, hxy⟩ := ih c hc'
        refine ⟨c₀.toList ++ " AND ".toList ++ x, y, ?_⟩
        show (c₀ ++ " AND " ++ joinAnd (c₁ :: cs')).data
            = (c₀.data ++ " AND ".data ++ x) ++ (c.data ++ y)
        rw [String.data_append, String.data_append]
        have hxy2 : (joinAnd (c₁ :: cs')).data = x ++ (c.data ++ y) := hxy
        rw [hxy2]
        simp

theorem directiveParts_conds_split (conds sel dims : List String) (p : List Char)
    (hce : conds.isEmpty = false) :
    directiveParts conds sel dims p =
      (joinAnd conds).toList ::
        ((if sel.isEmpty then [] else [("출력컬럼 = " ++ pyListRepr (idCols ++ sel)).toList]) ++
         (if dims.isEmpty then []
          else [("차원컬럼 = " ++ pyListRepr dims).toList, "집계방식 = \'sum\'".toList]) ++
         [p]) := by
  unfold directiveParts
  rw [hce]
  simp

/-- A clean token embedded in the condition clause survives assembly. -/
theorem assemble_contains_cond (conds sel dims : List String) (p t x y : List Char)
    (hce : conds.isEmpty = false)
    (hsplit : (joinAnd conds).toList = x ++ (t ++ y))
    (ht : cleanTok t = true) :
    containsL t (assemble conds sel dims p) = true := by
  unfold assemble
  rw [directiveParts_conds_split conds sel dims p hce]
  rw [joinSpace_cons_ne _ _ (by simp)]
  rw [hsplit]
  rw [show (x ++ (t ++ y)) ++ ' ' :: joinSpace
        ((if sel.isEmpty then [] else [("출력컬럼 = " ++ pyListRepr (idCols ++ sel)).toList]) ++
         (if dims.isEmpty then []
          else [("차원컬럼 = " ++ pyListRepr dims).toList, "집계방식 = \'sum\'".toList]) ++
         [p])
      = x ++ (t ++ (y ++ ' ' :: joinSpace
        ((if sel.isEmpty then [] else [("출력컬럼 = " ++ pyListRepr (idCols ++ sel)).toList]) ++
         (if dims.isEmpty then []
          else [("차원컬럼 = " ++ pyListRepr dims).toList, "집계방식 = \'sum\'".toList]) ++
         [p]))) by simp]
  exact stripL_contains _ _ ht (collapseWs_contains x t _ ht)

set_option maxRecDepth 1000000 in
/-- Counterexample refuting claim C5 as stated: on `2층 q1w 2q1wF` the floor
alias `2층` occurs as a standalone whole word and exactly one floor condition
is produced, but the later device-code removals are plain substring
replacements — removing the code `q1w` excises it from inside the other code
`2q1wF`, re-creating the floor label `2F` as free text (even as a whole
word) in the final remainder, where the claim says the label is absent. -/
theorem C5_floor_label_counterexample :
    scanFind (mWord false "2층".toList) [] "2층 q1w 2q1wF".toList = true ∧
    (processParts "2층 q1w 2q1wF".toList).conds =
      ["(Floor == \"2F\")", "(장비명 == \"q1w\")", "(장비명 == \"2q1wF\")"] ∧
    scanFind (mWord false "2F".toList) []
      (processParts "2층 q1w 2q1wF".toList).remainder = true ∧
    process "2층 q1w 2q1wF" =
      "(Floor == \"2F\") AND (장비명 == \"q1w\") AND (장비명 == \"2q1wF\") 2F" := by
  refine ⟨by decide, by decide, by decide, by decide⟩

/-- Claim C5 amended (proved): for every raw input and floor label that
occurs as a standalone whole word in the working text as the floor pass
receives it (after normalization — which rewrites the aliases `1층/2층/3층`
to the canonical labels — and dimension stripping), the condition list
carries exactly one condition `(Floor == "<label>")`, the directive text
contains that condition, and the floor pass itself removes every standalone
whole-word occurrence of the label from its working text.  The label can
nevertheless reappear as free text in the directive's trailing remainder,
re-created by the later literal substring removals, as the counterexample
shows. -/
theorem C5_floor_condition_amended :
    ∀ (raw : List Char) (fl : String), fl ∈ floorLabels →
      scanFind (mWord false fl.toList) [] (stageDims raw).2 = true →
        List.count (mkFloorCond fl) (processParts raw).conds = 1 ∧
        scanFind (mWord false fl.toList) [] (stageFloors raw).2 = false ∧
        containsL (mkFloorCond fl).toList (directiveOf raw) = true := by
  intro raw fl hfl h
  have hcount := processParts_floor_count raw fl hfl h
  refine ⟨hcount.1, hcount.2, ?_⟩
  have hmem : mkFloorCond fl ∈ (processParts raw).conds := by
    by_contra hnm
    have h0 := List.count_eq_zero.mpr hnm
    rw [h0] at hcount
    simp at hcount
  have hne : (processParts raw).conds.isEmpty = false := by
    cases hcl : (processParts raw).conds with
    | nil => rw [hcl] at hmem; simp at hmem
    | cons a as => rfl
  obtain ⟨x, y, hxy⟩ := joinAnd_mem_split (processParts raw).conds (mkFloorCond fl) hmem
  have hct : cleanTok (mkFloorCond fl).toList = true := by
    fin_cases hfl <;> decide
  unfold directiveOf
  exact assemble_contains_cond _ _ _ _ _ x y hne hxy hct

set_option maxRecDepth 1000000 in
/-- Witness for the amended C5 on the input `2층 알려줘` with label `2F`. -/
theorem C5_floor_condition_amended_witness :
    List.count (mkFloorCond "2F") (processParts "2층 알려줘".toList).conds = 1 ∧
    scanFind (mWord false "2F".toList) [] (stageFloors "2층 알려줘".toList).2 = false ∧
    containsL (mkFloorCond "2F").toList (directiveOf "2층 알려줘".toList) = true :=
  C5_floor_condition_amended "2층 알려줘".toList "2F" (by decide) (by decide)

end App
